import Mathlib

set_option maxHeartbeats 1000000

/-!
Shallow embedding of the hand-rolled data-structures module
(training-grounds/leetcode-top-75/shared/python/ds.py): dynamic array
(`ArrayList`), singly linked list (`LinkedList`), `Stack`, `Queue`, and the
two binary heaps (`MinHeap`, `MaxHeap`).

Conventions of the embedding:
* A Python slot that may hold `None` is `Option Int` (`none` stands for `None`).
* Methods that can raise (`IndexError` on a bad index, `TypeError` on a
  comparison against `None`) return `Except String _`.
* Python references to linked-list nodes are modelled by an arena: every node
  ever allocated lives in `LinkedList.nodes` in allocation order, and
  `head` / `tail` / `next` are indices into that arena (`none` = null).
* `while` loops become structural, well-founded or fuel-based recursion; the
  fuel passed is always sufficient, which the lemmas prove.
-/

/-- Python `class ArrayList`: backing buffer `_data` of length `_capacity`, logical
size `_size`.  Unused slots hold `none` (Python `None`). -/
structure ArrayList where
  _capacity : Nat
  _size : Nat
  _data : List (Option Int)
deriving Repr, DecidableEq

/-- The default of the `capacity` argument of `ArrayList.__init__`. -/
def defaultCapacity : Int := 4

/-- Python `ArrayList.__init__(capacity)`: coerce non-positive requests to 1, fill
the buffer with `None`. -/
def ArrayList.init (capacity : Int) : ArrayList :=
  let cap : Int := if capacity < 1 then 1 else capacity
  { _capacity := cap.toNat, _size := 0, _data := List.replicate cap.toNat none }

/-- Python `ArrayList()` with the default capacity argument. -/
def ArrayList.initDefault : ArrayList := ArrayList.init defaultCapacity

/-- Python `ArrayList._grow`: double the capacity, copy the first `_size` slots into
a fresh `None`-filled buffer (the copy loop `while i < self._size`). -/
def ArrayList._grow (a : ArrayList) : ArrayList :=
  let newCapacity := a._capacity * 2
  { _capacity := newCapacity
    _size := a._size
    _data := a._data.take a._size ++ List.replicate (newCapacity - a._size) none }

/-- Python `ArrayList.add(value)`: grow when full, then write at index `_size`. -/
def ArrayList.add (a : ArrayList) (value : Option Int) : ArrayList :=
  let a' := if a._size ≥ a._capacity then a._grow else a
  { a' with _data := a'._data.set a'._size value, _size := a'._size + 1 }

/-- Python `ArrayList.get(index)`: raises `IndexError` outside `[0, _size)`. -/
def ArrayList.get (a : ArrayList) (index : Int) : Except String (Option Int) :=
  if index < 0 ∨ index ≥ (a._size : Int) then .error "index out of bounds"
  else .ok (a._data.getD index.toNat none)

/-- Python `ArrayList.set(index, value)`: raises `IndexError` outside `[0, _size)`. -/
def ArrayList.set (a : ArrayList) (index : Int) (value : Option Int) :
    Except String ArrayList :=
  if index < 0 ∨ index ≥ (a._size : Int) then .error "index out of bounds"
  else .ok { a with _data := a._data.set index.toNat value }

/-- Python `ArrayList.size()`. -/
def ArrayList.size (a : ArrayList) : Nat := a._size

/-- Python `ArrayList.remove_last()`: `None` sentinel on the empty array, otherwise
return the last value, blank its slot and shrink. -/
def ArrayList.remove_last (a : ArrayList) : Option Int × ArrayList :=
  if a._size = 0 then (none, a)
  else
    let value := a._data.getD (a._size - 1) none
    (value, { a with _data := a._data.set (a._size - 1) none, _size := a._size - 1 })

/-- Python `ArrayList.to_list()`: ordered copy of the `_size` occupied slots. -/
def ArrayList.to_list (a : ArrayList) : List (Option Int) :=
  a._data.take a._size

/-- Structural well-formedness: the buffer really has `_capacity` slots, the
logical size fits, and the capacity is positive.  `ArrayList.init`
establishes it and every operation preserves it. -/
def ArrayList.WF (a : ArrayList) : Prop :=
  a._data.length = a._capacity ∧ a._size ≤ a._capacity ∧ 1 ≤ a._capacity

theorem ArrayList.init_WF (capacity : Int) : (ArrayList.init capacity).WF := by
  unfold ArrayList.init ArrayList.WF
  by_cases h : capacity < 1
  · simp [h]
  · simp only [h, if_false]
    simp
    omega

theorem ArrayList.init_size (capacity : Int) : (ArrayList.init capacity)._size = 0 := rfl

theorem ArrayList.init_to_list (capacity : Int) : (ArrayList.init capacity).to_list = [] := by
  simp [ArrayList.init, ArrayList.to_list]

/-! ### Generic list helpers used throughout -/

theorem list_getD_set {α : Type} (l : List α) (i k : Nat) (v d : α) :
    (l.set i v).getD k d = if i = k ∧ i < l.length then v else l.getD k d := by
  simp only [List.getD_eq_getElem?_getD, List.getElem?_set]
  by_cases h1 : i = k
  · subst h1
    by_cases h2 : i < l.length <;> simp [h2]
    have : l[i]? = none := by
      rw [List.getElem?_eq_none_iff]
      omega
    simp [this]
  · simp [h1]

theorem list_getD_take {α : Type} (l : List α) (n k : Nat) (d : α) (h : k < n) :
    (l.take n).getD k d = l.getD k d := by
  simp [List.getD_eq_getElem?_getD, List.getElem?_take, h]

theorem list_getD_append_left {α : Type} (l1 l2 : List α) (k : Nat) (d : α)
    (h : k < l1.length) : (l1 ++ l2).getD k d = l1.getD k d := by
  simp [List.getD_eq_getElem?_getD, List.getElem?_append_left h]

theorem list_getD_append_right {α : Type} (l1 l2 : List α) (k : Nat) (d : α)
    (h : l1.length ≤ k) : (l1 ++ l2).getD k d = l2.getD (k - l1.length) d := by
  simp [List.getD_eq_getElem?_getD, List.getElem?_append_right h]

theorem list_getD_map_some (l : List Int) (k : Nat) (h : k < l.length) :
    (l.map some).getD k none = some (l.getD k 0) := by
  simp only [List.getD_eq_getElem?_getD, List.getElem?_map]
  rw [List.getElem?_eq_getElem h]
  simp

theorem list_count_set_add (l : List Int) (i : Nat) (v x : Int) (hi : i < l.length) :
    (l.set i v).count x + (if l.getD i 0 = x then 1 else 0)
      = l.count x + (if v = x then 1 else 0) := by
  induction l generalizing i with
  | nil => simp at hi
  | cons b t ih =>
      cases i with
      | zero =>
          simp only [List.set, List.count_cons, List.getD_cons_zero, beq_iff_eq]
          split_ifs <;> omega
      | succ i =>
          have hi' : i < t.length := by
            simp only [List.length_cons] at hi
            omega
          have hrec := ih i hi'
          simp only [List.set, List.count_cons, List.getD_cons_succ, beq_iff_eq]
          split_ifs at hrec ⊢ <;> omega

theorem list_swap_perm (l : List Int) (i j : Nat) (hi : i < l.length) (hj : j < l.length) :
    ((l.set i (l.getD j 0)).set j (l.getD i 0)).Perm l := by
  rw [List.perm_iff_count]
  intro x
  have h1 := list_count_set_add l i (l.getD j 0) x hi
  have h2 := list_count_set_add (l.set i (l.getD j 0)) j (l.getD i 0) x
    (by simpa using hj)
  have h3 : (l.set i (l.getD j 0)).getD j 0 = l.getD j 0 := by
    rw [list_getD_set]
    by_cases h : i = j <;> simp [h, hi]
  rw [h3] at h2
  omega

/-! ### `ArrayList` operation specifications (under `WF`) -/

theorem ArrayList.to_list_length (a : ArrayList) (h : a.WF) :
    a.to_list.length = a._size := by
  obtain ⟨hlen, hsc, -⟩ := h
  simp [ArrayList.to_list]
  omega

theorem ArrayList._grow_spec (a : ArrayList) (h : a.WF) :
    a._grow.WF ∧ a._grow._size = a._size ∧ a._grow.to_list = a.to_list ∧
      a._size < a._grow._capacity := by
  obtain ⟨hlen, hsc, hc⟩ := h
  have hlen' : (a._data.take a._size).length = a._size := by simp; omega
  refine ⟨⟨?_, ?_, ?_⟩, rfl, ?_, ?_⟩
  · simp [ArrayList._grow]
    omega
  · simp [ArrayList._grow]
    omega
  · simp [ArrayList._grow]
    omega
  · show (a._data.take a._size ++ _).take a._size = _
    rw [List.take_left' hlen']
    rfl
  · show a._size < a._capacity * 2
    omega

theorem ArrayList.add_spec (a : ArrayList) (v : Option Int) (h : a.WF) :
    (a.add v).WF ∧ (a.add v)._size = a._size + 1 ∧
      (a.add v).to_list = a.to_list ++ [v] := by
  have key : ∀ b : ArrayList, b.WF → b._size < b._capacity →
      ({ b with _data := b._data.set b._size v, _size := b._size + 1 } : ArrayList).WF ∧
      ({ b with _data := b._data.set b._size v, _size := b._size + 1 } : ArrayList)._size
        = b._size + 1 ∧
      ({ b with _data := b._data.set b._size v, _size := b._size + 1 } : ArrayList).to_list
        = b.to_list ++ [v] := by
    intro b hb hlt
    obtain ⟨hlen, hsc, hc⟩ := hb
    refine ⟨⟨by simp [hlen], by show b._size + 1 ≤ b._capacity; omega, hc⟩, rfl, ?_⟩
    show (b._data.set b._size v).take (b._size + 1) = b._data.take b._size ++ [v]
    rw [List.set_take, List.take_succ]
    have hbs : b._size < b._data.length := by omega
    rw [List.getElem?_eq_getElem hbs]
    have hlt' : (b._data.take b._size).length ≤ b._size := by simp
    rw [List.set_append_right _ _ hlt']
    have hlen2 : (b._data.take b._size).length = b._size := by
      simp
      omega
    rw [hlen2]
    simp
  unfold ArrayList.add
  by_cases hge : a._size ≥ a._capacity
  · rw [if_pos hge]
    obtain ⟨hW, hs, ht, hlt⟩ := ArrayList._grow_spec a h
    obtain ⟨hWr, hsr, htr⟩ := key a._grow hW (by omega)
    exact ⟨hWr, by rw [hsr, hs], by rw [htr, ht]⟩
  · rw [if_neg hge]
    exact key a h (by omega)

theorem ArrayList.get_spec (a : ArrayList) (i : Nat) (h : a.WF) (hi : i < a._size) :
    a.get (i : Int) = .ok (a.to_list.getD i none) := by
  obtain ⟨hlen, hsc, -⟩ := h
  unfold ArrayList.get
  have hcond : ¬((i : Int) < 0 ∨ (i : Int) ≥ (a._size : Int)) := by
    push_neg
    omega
  rw [if_neg hcond]
  congr 1
  have htn : ((i : Int)).toNat = i := by omega
  rw [htn]
  exact (list_getD_take a._data a._size i none hi).symm

theorem ArrayList.set_spec (a : ArrayList) (i : Nat) (v : Option Int) (h : a.WF)
    (hi : i < a._size) :
    ∃ a', a.set (i : Int) v = .ok a' ∧ a'.WF ∧ a'._size = a._size ∧
      a'._capacity = a._capacity ∧ a'.to_list = a.to_list.set i v := by
  obtain ⟨hlen, hsc, hc⟩ := h
  unfold ArrayList.set
  have hcond : ¬((i : Int) < 0 ∨ (i : Int) ≥ (a._size : Int)) := by
    push_neg
    omega
  rw [if_neg hcond]
  have htn : ((i : Int)).toNat = i := by omega
  refine ⟨_, rfl, ⟨by simp [hlen], by show a._size ≤ a._capacity; omega, hc⟩, rfl, rfl, ?_⟩
  show (a._data.set _ v).take a._size = (a._data.take a._size).set i v
  rw [htn, List.set_take]

theorem ArrayList.remove_last_spec (a : ArrayList) (h : a.WF) (hpos : 0 < a._size) :
    ∃ a', a.remove_last = (a.to_list.getD (a._size - 1) none, a') ∧ a'.WF ∧
      a'._size = a._size - 1 ∧ a'.to_list = a.to_list.dropLast := by
  obtain ⟨hlen, hsc, hc⟩ := h
  unfold ArrayList.remove_last
  rw [if_neg (by omega)]
  have hval : a.to_list.getD (a._size - 1) none = a._data.getD (a._size - 1) none :=
    list_getD_take _ _ _ _ (by omega)
  refine ⟨{ a with _data := a._data.set (a._size - 1) none, _size := a._size - 1 }, ?_,
    ⟨by simp [hlen], by show a._size - 1 ≤ a._capacity; omega, hc⟩, rfl, ?_⟩
  · rw [hval]
  · show (a._data.set (a._size - 1) none).take (a._size - 1)
        = (a._data.take a._size).dropLast
    rw [List.set_take, List.set_eq_of_length_le (by simp), List.dropLast_eq_take,
      List.take_take]
    congr 1
    simp
    omega

/-! ### `Stack` (LIFO adapter over `ArrayList`) -/

/-- Python `class Stack`: owns one `ArrayList`. -/
structure Stack where
  _items : ArrayList
deriving Repr, DecidableEq

/-- Python `Stack.__init__`: a fresh default-capacity `ArrayList`. -/
def Stack.init : Stack := ⟨ArrayList.initDefault⟩

/-- Python `Stack.push(value)`. -/
def Stack.push (s : Stack) (value : Option Int) : Stack := ⟨s._items.add value⟩

/-- Python `Stack.pop()`. -/
def Stack.pop (s : Stack) : Option Int × Stack :=
  let r := s._items.remove_last
  (r.1, ⟨r.2⟩)

/-- Python `Stack.peek()`. -/
def Stack.peek (s : Stack) : Except String (Option Int) :=
  if s._items.size = 0 then .ok none
  else s._items.get ((s._items.size : Int) - 1)

/-- Python `Stack.is_empty()`. -/
def Stack.is_empty (s : Stack) : Bool := s._items.size = 0

/-- Iterated `add` (one call per element of `vs`, in order). -/
def ArrayList.addAll (a : ArrayList) (vs : List Int) : ArrayList :=
  vs.foldl (fun b v => b.add (some v)) a

/-- Iterated `push` (one call per element of `vs`, in order). -/
def Stack.pushAll (s : Stack) (vs : List Int) : Stack :=
  vs.foldl (fun t v => t.push (some v)) s

/-- Runs `n` successive `pop()` calls, collecting the returned values in order. -/
def Stack.popN : Stack → Nat → List (Option Int) × Stack
  | s, 0 => ([], s)
  | s, n + 1 =>
      let r := s.pop
      let rest := r.2.popN n
      (r.1 :: rest.1, rest.2)

theorem ArrayList.addAll_spec (vs : List Int) : ∀ a : ArrayList, a.WF →
    (a.addAll vs).WF ∧ (a.addAll vs)._size = a._size + vs.length ∧
      (a.addAll vs).to_list = a.to_list ++ vs.map some := by
  induction vs with
  | nil =>
      intro a h
      exact ⟨h, by simp [ArrayList.addAll], by simp [ArrayList.addAll]⟩
  | cons v vs ih =>
      intro a h
      obtain ⟨hW, hs, ht⟩ := ArrayList.add_spec a (some v) h
      have step : a.addAll (v :: vs) = (a.add (some v)).addAll vs := rfl
      obtain ⟨hW', hs', ht'⟩ := ih (a.add (some v)) hW
      refine ⟨by rw [step]; exact hW', ?_, ?_⟩
      · rw [step, hs', hs]
        simp
        omega
      · rw [step, ht', ht]
        simp

/-- C2: after `N` adds, `size()` is `N` and `get(i)` returns the `i`-th added
value for every `0 ≤ i < N`, for every starting capacity and value sequence. -/
theorem claim_C2_dynamic_array_growth (c : Int) (vs : List Int) :
    ((ArrayList.init c).addAll vs).size = vs.length ∧
    ∀ i : Nat, i < vs.length →
      ((ArrayList.init c).addAll vs).get (i : Int) = .ok (some (vs.getD i 0)) := by
  obtain ⟨hW, hs, ht⟩ := ArrayList.addAll_spec vs (ArrayList.init c) (ArrayList.init_WF c)
  rw [ArrayList.init_to_list, ArrayList.init_size] at *
  constructor
  · show ((ArrayList.init c).addAll vs)._size = vs.length
    omega
  · intro i hi
    rw [ArrayList.get_spec _ i hW (by omega), ht]
    simp only [List.nil_append]
    rw [list_getD_map_some vs i hi]

/-- Witness for C2 at `c = 1`, `vs = [10, 20, 30, 40, 50]`, `i = 4`. -/
theorem claim_C2_witness :
    ((ArrayList.init 1).addAll [10, 20, 30, 40, 50]).size = 5 ∧
    ((ArrayList.init 1).addAll [10, 20, 30, 40, 50]).get 4 = .ok (some 50) := by
  obtain ⟨h1, h2⟩ := claim_C2_dynamic_array_growth 1 [10, 20, 30, 40, 50]
  exact ⟨h1, h2 4 (by decide)⟩

theorem Stack.pushAll_spec (vs : List Int) : ∀ s : Stack, s._items.WF →
    (s.pushAll vs)._items.WF ∧
      (s.pushAll vs)._items.to_list = s._items.to_list ++ vs.map some := by
  induction vs with
  | nil =>
      intro s h
      exact ⟨h, by simp [Stack.pushAll]⟩
  | cons v vs ih =>
      intro s h
      obtain ⟨hW, -, ht⟩ := ArrayList.add_spec s._items (some v) h
      have step : s.pushAll (v :: vs) = (s.push (some v)).pushAll vs := rfl
      obtain ⟨hW', ht'⟩ := ih (s.push (some v)) hW
      rw [step]
      refine ⟨hW', ?_⟩
      rw [ht']
      show (s.push (some v))._items.to_list ++ _ = _
      rw [show (s.push (some v))._items = s._items.add (some v) from rfl, ht]
      simp

theorem Stack.popN_reverse (l : List Int) : ∀ s : Stack, s._items.WF →
    s._items.to_list = l.map some →
    (s.popN l.length).1 = l.reverse.map some := by
  induction l using List.reverseRecOn with
  | nil => intro s _ _; simp [Stack.popN]
  | append_singleton l0 x ih =>
      intro s hW ht
      have hlen : s._items._size = l0.length + 1 := by
        have := ArrayList.to_list_length s._items hW
        rw [ht] at this
        simp at this
        omega
      obtain ⟨a', hrl, hW', hs', ht'⟩ := ArrayList.remove_last_spec s._items hW (by omega)
      have hlength : (l0 ++ [x]).length = l0.length + 1 := by simp
      rw [hlength]
      show (let r := s.pop; let rest := r.2.popN l0.length; (r.1 :: rest.1, rest.2)).1
        = (l0 ++ [x]).reverse.map some
      have hpop : s.pop = ((s._items.to_list.getD (s._items._size - 1) none), (⟨a'⟩ : Stack)) := by
        show (s._items.remove_last.1, (⟨s._items.remove_last.2⟩ : Stack)) = _
        rw [hrl]
      have hval : s._items.to_list.getD (s._items._size - 1) none = some x := by
        rw [ht, hlen]
        simp only [Nat.add_sub_cancel, List.map_append]
        rw [list_getD_append_right _ _ _ _ (by simp)]
        simp
      have htail : a'.to_list = l0.map some := by
        rw [ht', ht]
        simp only [List.map_append, List.map_cons, List.map_nil]
        rw [List.dropLast_concat]
      have hrec := ih (⟨a'⟩ : Stack) hW' htail
      simp only [hpop, hval]
      rw [show ((⟨a'⟩ : Stack).popN l0.length).1 = l0.reverse.map some from hrec]
      simp

/-- C3: pushing `v1..vn` in order onto a fresh `Stack` and popping `n` times
yields exactly `vn, ..., v1`. -/
theorem claim_C3_stack_lifo (vs : List Int) :
    ((Stack.init.pushAll vs).popN vs.length).1 = vs.reverse.map some := by
  have hW : Stack.init._items.WF := ArrayList.init_WF defaultCapacity
  obtain ⟨hW', ht'⟩ := Stack.pushAll_spec vs Stack.init hW
  refine Stack.popN_reverse vs _ hW' ?_
  rw [ht']
  show ArrayList.initDefault.to_list ++ _ = _
  rw [show ArrayList.initDefault.to_list = [] from rfl]
  simp

/-- C6: `get`/`set` fail with the out-of-bounds error exactly when the index
is negative or at least `size()`; in particular `get(-1)` and `get(size())`
always fail, and in-bounds accesses always succeed (no clamping). -/
theorem claim_C6_array_bounds (a : ArrayList) (i : Int) (v : Option Int) :
    (a.get i = Except.error "index out of bounds" ↔ (i < 0 ∨ i ≥ (a.size : Int))) ∧
    (a.set i v = Except.error "index out of bounds" ↔ (i < 0 ∨ i ≥ (a.size : Int))) ∧
    (¬(i < 0 ∨ i ≥ (a.size : Int)) →
      (∃ r, a.get i = Except.ok r) ∧ ∃ a', a.set i v = Except.ok a') ∧
    a.get (-1) = Except.error "index out of bounds" ∧
    a.get ((a.size : Int)) = Except.error "index out of bounds" := by
  unfold ArrayList.get ArrayList.set ArrayList.size
  refine ⟨?_, ?_, ?_, ?_, ?_⟩
  · by_cases hc : i < 0 ∨ i ≥ (a._size : Int) <;> simp [hc]
  · by_cases hc : i < 0 ∨ i ≥ (a._size : Int) <;> simp [hc]
  · intro hc
    rw [if_neg hc, if_neg hc]
    exact ⟨⟨_, rfl⟩, _, rfl⟩
  · rw [if_pos (by omega)]
  · rw [if_pos (by omega)]

/-- Witness for C6's in-bounds clause on a one-element array at index 0. -/
theorem claim_C6_witness :
    (∃ r, ((ArrayList.init 1).add (some 7)).get 0 = Except.ok r) ∧
    ∃ a', ((ArrayList.init 1).add (some 7)).set 0 (some 9) = Except.ok a' :=
  (claim_C6_array_bounds ((ArrayList.init 1).add (some 7)) 0 (some 9)).2.2.1 (by decide)

/-- C8: the constructor coerces non-positive capacities to 1, keeps positive
ones, always yields an empty array, and the no-argument default capacity is
the constant 4 ≥ 1. -/
theorem claim_C8_init_capacity (c : Int) :
    (ArrayList.init c)._size = 0 ∧
    (1 ≤ c → ((ArrayList.init c)._capacity : Int) = c) ∧
    (c ≤ 0 → (ArrayList.init c)._capacity = 1) ∧
    ArrayList.initDefault._capacity = 4 ∧ 1 ≤ defaultCapacity := by
  refine ⟨rfl, ?_, ?_, rfl, by decide⟩
  · intro h
    unfold ArrayList.init
    rw [if_neg (by omega)]
    simp
    omega
  · intro h
    unfold ArrayList.init
    rw [if_pos (by omega)]
    rfl

/-- Witness for C8 at `c = 7` and `c = -2`. -/
theorem claim_C8_witness :
    ((ArrayList.init 7)._capacity : Int) = 7 ∧ (ArrayList.init (-2))._capacity = 1 :=
  ⟨(claim_C8_init_capacity 7).2.1 (by decide),
   (claim_C8_init_capacity (-2)).2.2.1 (by decide)⟩

/-! ### `LinkedList` (arena model of node references) -/

/-- Python `class ListNode`: value plus reference to the next node (`none` = Python
`None`); the reference is an index into the owning list's arena. -/
structure ListNode where
  val : Int
  next : Option Nat
deriving Repr, DecidableEq

/-- The node produced by `ListNode()`s default arguments (`val=0`,
`next_node=None`); also used as the out-of-range default of arena lookups
(never reached from a well-formed list). -/
def ListNode.mkDefault : ListNode := { val := 0, next := none }

/-- Python `class LinkedList`: `nodes` is the arena of every node ever allocated, in
allocation order; `head`/`tail` are arena indices or `none`. -/
structure LinkedList where
  nodes : List ListNode
  head : Option Nat
  tail : Option Nat
  _size : Nat
deriving Repr, DecidableEq

/-- Python `LinkedList.__init__`. -/
def LinkedList.init : LinkedList :=
  { nodes := [], head := none, tail := none, _size := 0 }

/-- Python `LinkedList.add_last(value)`: allocate `ListNode(value)`; if the list is
empty it becomes head and tail, otherwise it is linked after the old tail. -/
def LinkedList.add_last (s : LinkedList) (value : Int) : LinkedList :=
  let idx := s.nodes.length
  let node : ListNode := { val := value, next := none }
  match s.tail with
  | none =>
      { nodes := s.nodes ++ [node], head := some idx, tail := some idx,
        _size := s._size + 1 }
  | some t =>
      let old := s.nodes.getD t ListNode.mkDefault
      { nodes := s.nodes.set t { old with next := some idx } ++ [node],
        head := s.head, tail := some idx, _size := s._size + 1 }

/-- Python `LinkedList.remove_first()`: `None` sentinel when `head is None`;
otherwise unlink the head (clearing `tail` when the list empties). -/
def LinkedList.remove_first (s : LinkedList) : Option Int × LinkedList :=
  match s.head with
  | none => (none, s)
  | some h =>
      let node := s.nodes.getD h ListNode.mkDefault
      let newHead := node.next
      let newTail := if newHead = none then none else s.tail
      (some node.val,
        { nodes := s.nodes, head := newHead, tail := newTail, _size := s._size - 1 })

/-- Python `LinkedList.size()`. -/
def LinkedList.size (s : LinkedList) : Nat := s._size

/-- Representation invariant: `l` is the sequence of values the list holds.
Because nodes are only ever appended to the arena and linked after the old
tail, a reachable list's chain is exactly the arena suffix starting at
`head`, with consecutive `next` links and `next = none` at the final node. -/
def LinkedList.Rep (s : LinkedList) (l : List Int) : Prop :=
  s._size = l.length ∧
  ((l = [] ∧ s.head = none ∧ s.tail = none) ∨
   (l ≠ [] ∧ ∃ h, s.head = some h ∧ s.tail = some (s.nodes.length - 1) ∧
      h + l.length = s.nodes.length ∧
      ∀ k, k < l.length →
        s.nodes.getD (h + k) ListNode.mkDefault =
          { val := l.getD k 0,
            next := if h + k + 1 = s.nodes.length then none else some (h + k + 1) }))


theorem LinkedList.add_last_eq_none (s : LinkedList) (v : Int) (ht : s.tail = none) :
    s.add_last v =
      { nodes := s.nodes ++ [{ val := v, next := none }],
        head := some s.nodes.length, tail := some s.nodes.length,
        _size := s._size + 1 } := by
  unfold LinkedList.add_last
  rw [ht]

theorem LinkedList.add_last_eq_some (s : LinkedList) (v : Int) (t : Nat)
    (ht : s.tail = some t) :
    s.add_last v =
      { nodes := s.nodes.set t
          { s.nodes.getD t ListNode.mkDefault with next := some s.nodes.length }
          ++ [{ val := v, next := none }],
        head := s.head, tail := some s.nodes.length, _size := s._size + 1 } := by
  unfold LinkedList.add_last
  rw [ht]

theorem LinkedList.remove_first_eq_none (s : LinkedList) (hh : s.head = none) :
    s.remove_first = (none, s) := by
  unfold LinkedList.remove_first
  rw [hh]

theorem LinkedList.remove_first_eq_some (s : LinkedList) (h : Nat)
    (hh : s.head = some h) :
    s.remove_first =
      (some (s.nodes.getD h ListNode.mkDefault).val,
       { nodes := s.nodes, head := (s.nodes.getD h ListNode.mkDefault).next,
         tail := if (s.nodes.getD h ListNode.mkDefault).next = none then none
                 else s.tail,
         _size := s._size - 1 }) := by
  unfold LinkedList.remove_first
  rw [hh]

theorem LinkedList.init_Rep : LinkedList.init.Rep [] :=
  ⟨rfl, Or.inl ⟨rfl, rfl, rfl⟩⟩

theorem LinkedList.add_last_Rep (s : LinkedList) (l : List Int) (v : Int)
    (hr : s.Rep l) : (s.add_last v).Rep (l ++ [v]) := by
  obtain ⟨hsz, hcases⟩ := hr
  rcases hcases with ⟨hnil, hh, ht⟩ | ⟨hne, h, hh, ht, hlen, hnodes⟩
  · subst hnil
    rw [LinkedList.add_last_eq_none s v ht]
    simp only [List.nil_append]
    refine ⟨?_, Or.inr ⟨by simp, s.nodes.length, rfl, ?_, ?_, ?_⟩⟩
    · simp at hsz
      simp [hsz]
    · simp
    · simp
    · intro k hk
      have hk0 : k = 0 := by simpa using hk
      subst hk0
      simp only [Nat.add_zero, List.length_cons, List.length_nil, List.length_append]
      rw [list_getD_append_right _ _ _ _ (by simp)]
      simp
  · rw [LinkedList.add_last_eq_some s v (s.nodes.length - 1) ht]
    have hlpos : 0 < l.length := by
      cases l with
      | nil => exact absurd rfl hne
      | cons a t => simp
    have hL : 0 < s.nodes.length := by omega
    refine ⟨?_, Or.inr ⟨by simp, h, hh, ?_, ?_, ?_⟩⟩
    · simp [hsz]
    · simp
    · simp
      omega
    · intro k hk
      simp only [List.length_append, List.length_cons, List.length_nil,
        List.length_set] at hk ⊢
      by_cases hklast : k = l.length
      · subst hklast
        rw [list_getD_append_right _ _ _ _ (by simp; omega)]
        rw [List.length_set, show h + l.length - s.nodes.length = 0 from by omega]
        rw [if_pos (by omega)]
        have hv : (l ++ [v]).getD l.length 0 = v := by
          rw [list_getD_append_right _ _ _ _ (by omega)]
          simp
        rw [hv]
        simp
      · have hklt : k < l.length := by omega
        have hkidx : h + k < s.nodes.length := by omega
        rw [list_getD_append_left _ _ _ _ (by simp; omega)]
        have hval : (l ++ [v]).getD k 0 = l.getD k 0 :=
          list_getD_append_left _ _ _ _ hklt
        rw [hval]
        by_cases hkpen : k = l.length - 1
        · subst hkpen
          have hidx : h + (l.length - 1) = s.nodes.length - 1 := by omega
          rw [hidx, list_getD_set, if_pos ⟨rfl, by omega⟩]
          have hold := hnodes (l.length - 1) (by omega)
          rw [hidx] at hold
          rw [hold]
          have hc2 : ¬(s.nodes.length - 1 + 1 = s.nodes.length + 1) := by omega
          rw [if_neg hc2]
          have he : s.nodes.length - 1 + 1 = s.nodes.length := by omega
          rw [he]
        · have hkne : ¬(s.nodes.length - 1 = h + k ∧
              s.nodes.length - 1 < s.nodes.length) := by
            intro hx
            omega
          rw [list_getD_set, if_neg hkne]
          have hold := hnodes k hklt
          rw [hold]
          have hc1 : ¬(h + k + 1 = s.nodes.length) := by omega
          have hc2 : ¬(h + k + 1 = s.nodes.length + 1) := by omega
          rw [if_neg hc1, if_neg hc2]

theorem LinkedList.remove_first_Rep_cons (s : LinkedList) (v : Int) (l : List Int)
    (hr : s.Rep (v :: l)) :
    (s.remove_first).1 = some v ∧ (s.remove_first).2.Rep l := by
  obtain ⟨hsz, hcases⟩ := hr
  rcases hcases with ⟨hnil, -, -⟩ | ⟨-, h, hh, ht, hlen, hnodes⟩
  · simp at hnil
  · have hnode0 := hnodes 0 (by simp)
    simp only [Nat.add_zero, List.getD_cons_zero] at hnode0
    rw [LinkedList.remove_first_eq_some s h hh]
    simp only [List.length_cons] at hlen hsz
    constructor
    · rw [hnode0]
    · by_cases hone : l = []
      · subst hone
        have hlast : h + 0 + 1 = s.nodes.length := by simp at hlen; omega
        have hnext : (s.nodes.getD h ListNode.mkDefault).next = none := by
          rw [hnode0]
          show (if h + 0 + 1 = s.nodes.length then none else some (h + 0 + 1)) = none
          rw [if_pos hlast]
        rw [hnext]
        refine ⟨?_, Or.inl ⟨rfl, rfl, ?_⟩⟩
        · simp at hsz ⊢
          omega
        · simp
      · have hlpos : 0 < l.length := by
          cases l with
          | nil => exact absurd rfl hone
          | cons a t => simp
        have hnotlast : ¬(h + 0 + 1 = s.nodes.length) := by omega
        have hnext : (s.nodes.getD h ListNode.mkDefault).next = some (h + 1) := by
          rw [hnode0]
          show (if h + 0 + 1 = s.nodes.length then none else some (h + 0 + 1))
            = some (h + 1)
          rw [if_neg hnotlast]
        rw [hnext]
        refine ⟨by simp [hsz], Or.inr ⟨hone, h + 1, rfl, ?_, by simp; omega, ?_⟩⟩
        · simp [ht]
        · intro k hk
          have hrec := hnodes (k + 1) (by simpa using Nat.succ_lt_succ hk)
          have hidx : h + (k + 1) = h + 1 + k := by omega
          rw [hidx] at hrec
          rw [hrec]
          simp only [List.getD_cons_succ]

theorem LinkedList.remove_first_Rep_nil (s : LinkedList) (hr : s.Rep []) :
    s.remove_first = (none, s) := by
  obtain ⟨-, hcases⟩ := hr
  rcases hcases with ⟨-, hh, -⟩ | ⟨hne, -⟩
  · exact LinkedList.remove_first_eq_none s hh
  · exact absurd rfl hne

/-! ### `Queue` (FIFO adapter over `LinkedList`) -/

/-- Python `class Queue`: owns one `LinkedList`. -/
structure Queue where
  _items : LinkedList
deriving Repr, DecidableEq

/-- Python `Queue.__init__`. -/
def Queue.init : Queue := ⟨LinkedList.init⟩

/-- Python `Queue.enqueue(value)`. -/
def Queue.enqueue (q : Queue) (value : Int) : Queue := ⟨q._items.add_last value⟩

/-- Python `Queue.dequeue()`. -/
def Queue.dequeue (q : Queue) : Option Int × Queue :=
  let r := q._items.remove_first
  (r.1, ⟨r.2⟩)

/-- Python `Queue.is_empty()`. -/
def Queue.is_empty (q : Queue) : Bool := q._items.size = 0

/-- Iterated `enqueue` (one call per element of `vs`, in order). -/
def Queue.enqueueAll (q : Queue) (vs : List Int) : Queue :=
  vs.foldl (fun p v => p.enqueue v) q

/-- Runs `n` successive `dequeue()` calls, collecting the returned values in order. -/
def Queue.dequeueN : Queue → Nat → List (Option Int) × Queue
  | q, 0 => ([], q)
  | q, n + 1 =>
      let r := q.dequeue
      let rest := r.2.dequeueN n
      (r.1 :: rest.1, rest.2)

theorem Queue.enqueueAll_Rep (vs : List Int) : ∀ (q : Queue) (l : List Int),
    q._items.Rep l → (q.enqueueAll vs)._items.Rep (l ++ vs) := by
  induction vs with
  | nil =>
      intro q l hl
      simpa [Queue.enqueueAll] using hl
  | cons v vs ih =>
      intro q l hl
      have step : q.enqueueAll (v :: vs) = (q.enqueue v).enqueueAll vs := rfl
      rw [step]
      have hl' : (q.enqueue v)._items.Rep (l ++ [v]) :=
        LinkedList.add_last_Rep q._items l v hl
      have := ih (q.enqueue v) (l ++ [v]) hl'
      simpa using this

theorem Queue.dequeueN_Rep (l : List Int) : ∀ q : Queue, q._items.Rep l →
    (q.dequeueN l.length).1 = l.map some := by
  induction l with
  | nil => intro q _; simp [Queue.dequeueN]
  | cons v t ih =>
      intro q hl
      obtain ⟨hv, hrep⟩ := LinkedList.remove_first_Rep_cons q._items v t hl
      show (let r := q.dequeue; let rest := r.2.dequeueN t.length;
        (r.1 :: rest.1, rest.2)).1 = (v :: t).map some
      have hq : q.dequeue = ((q._items.remove_first).1,
          (⟨(q._items.remove_first).2⟩ : Queue)) := rfl
      simp only [hq, hv]
      have := ih ⟨(q._items.remove_first).2⟩ hrep
      rw [show ((⟨(q._items.remove_first).2⟩ : Queue).dequeueN t.length).1
        = t.map some from this]
      simp

/-- C4: enqueuing `v1..vn` in order onto a fresh `Queue` and dequeuing `n`
times yields exactly `v1, ..., vn`. -/
theorem claim_C4_queue_fifo (vs : List Int) :
    ((Queue.init.enqueueAll vs).dequeueN vs.length).1 = vs.map some := by
  have h0 : Queue.init._items.Rep [] := LinkedList.init_Rep
  have h1 := Queue.enqueueAll_Rep vs Queue.init [] h0
  simp only [List.nil_append] at h1
  exact Queue.dequeueN_Rep vs _ h1

/-- States of `LinkedList` reachable by any sequence of `add_last` /
`remove_first` calls from a freshly constructed list. -/
inductive LinkedList.Reachable : LinkedList → Prop where
  | init : Reachable LinkedList.init
  | add_last (s : LinkedList) (v : Int) : Reachable s → Reachable (s.add_last v)
  | remove_first (s : LinkedList) : Reachable s → Reachable (s.remove_first).2

theorem LinkedList.Reachable_Rep (s : LinkedList) (h : s.Reachable) :
    ∃ l, s.Rep l := by
  induction h with
  | init => exact ⟨[], LinkedList.init_Rep⟩
  | add_last s v _ ih =>
      obtain ⟨l, hl⟩ := ih
      exact ⟨l ++ [v], LinkedList.add_last_Rep s l v hl⟩
  | remove_first s _ ih =>
      obtain ⟨l, hl⟩ := ih
      cases l with
      | nil =>
          rw [LinkedList.remove_first_Rep_nil s hl]
          exact ⟨[], hl⟩
      | cons v t => exact ⟨t, (LinkedList.remove_first_Rep_cons s v t hl).2⟩

/-- C9: every reachable `LinkedList` state has `head = None` exactly when the
size is 0, and its tail node (when present) has `next = None`. -/
theorem claim_C9_linkedlist_invariant (s : LinkedList) (hs : s.Reachable) :
    (s.head = none ↔ s.size = 0) ∧
    (∀ t, s.tail = some t →
      (s.nodes.getD t ListNode.mkDefault).next = none) := by
  obtain ⟨l, hsz, hc⟩ := LinkedList.Reachable_Rep s hs
  rcases hc with ⟨hnil, hh, ht⟩ | ⟨hne, h, hh, ht, hlen, hnodes⟩
  · subst hnil
    refine ⟨?_, ?_⟩
    · rw [hh]
      unfold LinkedList.size
      simp [hsz]
    · intro t hts
      rw [ht] at hts
      exact absurd hts (by simp)
  · have hlpos : 0 < l.length := by
      cases l with
      | nil => exact absurd rfl hne
      | cons a b => simp
    refine ⟨?_, ?_⟩
    · rw [hh]
      unfold LinkedList.size
      rw [hsz]
      constructor
      · intro hx
        exact absurd hx (by simp)
      · intro hx
        omega
    · intro t hts
      rw [ht] at hts
      have htv : t = s.nodes.length - 1 := by
        injection hts with hx
        omega
      subst htv
      have hlast := hnodes (l.length - 1) (by omega)
      have hidx : h + (l.length - 1) = s.nodes.length - 1 := by omega
      rw [hidx] at hlast
      rw [hlast]
      show (if s.nodes.length - 1 + 1 = s.nodes.length then none
        else some (s.nodes.length - 1 + 1)) = none
      rw [if_pos (by omega)]

/-- Witness for C9 on the reachable state after one `add_last`. -/
theorem claim_C9_witness :
    ((LinkedList.init.add_last 5).head = none ↔ (LinkedList.init.add_last 5).size = 0) ∧
    (∀ t, (LinkedList.init.add_last 5).tail = some t →
      ((LinkedList.init.add_last 5).nodes.getD t ListNode.mkDefault).next = none) :=
  claim_C9_linkedlist_invariant (LinkedList.init.add_last 5)
    (LinkedList.Reachable.add_last LinkedList.init 5 LinkedList.Reachable.init)

/-! ### Binary heaps -/

/-- Python `<=` on possibly-`None` stored values: comparing `None` with an
int raises `TypeError`. -/
def leVal : Option Int → Option Int → Except String Bool
  | some x, some y => .ok (decide (x ≤ y))
  | _, _ => .error "TypeError: comparison with None"

/-- Python `<` on possibly-`None` stored values. -/
def ltVal : Option Int → Option Int → Except String Bool
  | some x, some y => .ok (decide (x < y))
  | _, _ => .error "TypeError: comparison with None"

/-- Python `>=`, flipped `<=`. -/
def geVal (x y : Option Int) : Except String Bool := leVal y x

/-- Python `>`, flipped `<`. -/
def gtVal (x y : Option Int) : Except String Bool := ltVal y x

/-- Python `class MinHeap`: owns one `ArrayList`. -/
structure MinHeap where
  _data : ArrayList
deriving Repr, DecidableEq

/-- Python `MinHeap.__init__`. -/
def MinHeap.init : MinHeap := ⟨ArrayList.initDefault⟩

/-- Python `MinHeap.size()`. -/
def MinHeap.size (h : MinHeap) : Nat := h._data.size

/-- Python `MinHeap.peek()`. -/
def MinHeap.peek (h : MinHeap) : Except String (Option Int) :=
  if h._data.size = 0 then return none
  else h._data.get 0

/-- Python `MinHeap._swap(i, j)`. -/
def MinHeap._swap (h : MinHeap) (i j : Int) : Except String MinHeap := do
  let temp ← h._data.get i
  let vj ← h._data.get j
  let a1 ← h._data.set i vj
  let a2 ← a1.set j temp
  return ⟨a2⟩

/-- Python `MinHeap._sift_up(idx)`: the `while idx > 0` loop; `idx` strictly
decreases to the parent on every iteration. -/
def MinHeap._sift_up (h : MinHeap) (idx : Nat) : Except String MinHeap :=
  if hpos : 0 < idx then do
    let parent := (idx - 1) / 2
    let pv ← h._data.get (parent : Int)
    let iv ← h._data.get (idx : Int)
    let b ← leVal pv iv
    if b then return h
    else do
      let h' ← h._swap (parent : Int) (idx : Int)
      h'._sift_up parent
  else return h
termination_by idx
decreasing_by
  simp_wf
  omega

/-- Python `MinHeap._sift_down(idx)`s `while True` body, with explicit fuel; the
Python loop terminates because `idx` strictly increases below `size`, so any
fuel of at least `size - idx` iterations is never exhausted (proved in
`MinHeap._sift_down_loop_spec_min`). -/
def MinHeap._sift_down_loop : Nat → MinHeap → Nat → Nat → Except String MinHeap
  | 0, _, _, _ => .error "sift_down fuel exhausted"
  | fuel + 1, h, size, idx => do
      let left := idx * 2 + 1
      let right := idx * 2 + 2
      let s1 ←
        (if left < size then do
          let lv ← h._data.get (left : Int)
          let sv ← h._data.get (idx : Int)
          let b ← ltVal lv sv
          pure (if b then left else idx)
        else pure idx)
      let smallest ←
        (if right < size then do
          let rv ← h._data.get (right : Int)
          let sv ← h._data.get (s1 : Int)
          let b ← ltVal rv sv
          pure (if b then right else s1)
        else pure s1)
      if smallest = idx then return h
      else do
        let h' ← h._swap (idx : Int) (smallest : Int)
        MinHeap._sift_down_loop fuel h' size smallest

/-- Python `MinHeap._sift_down(idx)`: `size` is read once before the loop. -/
def MinHeap._sift_down (h : MinHeap) (idx : Nat) : Except String MinHeap :=
  MinHeap._sift_down_loop (h._data.size + 1) h h._data.size idx

/-- Python `MinHeap.push(value)`. -/
def MinHeap.push (h : MinHeap) (value : Option Int) : Except String MinHeap := do
  let a := h._data.add value
  MinHeap._sift_up ⟨a⟩ (a.size - 1)

/-- Python `MinHeap.pop()`. -/
def MinHeap.pop (h : MinHeap) : Except String (Option Int × MinHeap) :=
  if h._data.size = 0 then return (none, h)
  else do
    let top ← h._data.get 0
    let r := h._data.remove_last
    let last := r.1
    let a1 := r.2
    if 0 < a1.size then do
      let a2 ← a1.set 0 last
      let h' ← MinHeap._sift_down ⟨a2⟩ 0
      return (top, h')
    else return (top, ⟨a1⟩)

/-- The multiset of currently contained elements, in array order
(`to_list` of the backing array). -/
def MinHeap.contents (h : MinHeap) : List (Option Int) := h._data.to_list

/-- Python `class MaxHeap`: owns one `ArrayList`. -/
structure MaxHeap where
  _data : ArrayList
deriving Repr, DecidableEq

/-- Python `MaxHeap.__init__`. -/
def MaxHeap.init : MaxHeap := ⟨ArrayList.initDefault⟩

/-- Python `MaxHeap.size()`. -/
def MaxHeap.size (h : MaxHeap) : Nat := h._data.size

/-- Python `MaxHeap.peek()`. -/
def MaxHeap.peek (h : MaxHeap) : Except String (Option Int) :=
  if h._data.size = 0 then return none
  else h._data.get 0

/-- Python `MaxHeap._swap(i, j)`. -/
def MaxHeap._swap (h : MaxHeap) (i j : Int) : Except String MaxHeap := do
  let temp ← h._data.get i
  let vj ← h._data.get j
  let a1 ← h._data.set i vj
  let a2 ← a1.set j temp
  return ⟨a2⟩

/-- Python `MaxHeap._sift_up(idx)` (`>=` comparison). -/
def MaxHeap._sift_up (h : MaxHeap) (idx : Nat) : Except String MaxHeap :=
  if hpos : 0 < idx then do
    let parent := (idx - 1) / 2
    let pv ← h._data.get (parent : Int)
    let iv ← h._data.get (idx : Int)
    let b ← geVal pv iv
    if b then return h
    else do
      let h' ← h._swap (parent : Int) (idx : Int)
      h'._sift_up parent
  else return h
termination_by idx
decreasing_by
  simp_wf
  omega

/-- Python `MaxHeap._sift_down(idx)`s loop (`>` comparisons, `largest`). -/
def MaxHeap._sift_down_loop : Nat → MaxHeap → Nat → Nat → Except String MaxHeap
  | 0, _, _, _ => .error "sift_down fuel exhausted"
  | fuel + 1, h, size, idx => do
      let left := idx * 2 + 1
      let right := idx * 2 + 2
      let s1 ←
        (if left < size then do
          let lv ← h._data.get (left : Int)
          let sv ← h._data.get (idx : Int)
          let b ← gtVal lv sv
          pure (if b then left else idx)
        else pure idx)
      let largest ←
        (if right < size then do
          let rv ← h._data.get (right : Int)
          let sv ← h._data.get (s1 : Int)
          let b ← gtVal rv sv
          pure (if b then right else s1)
        else pure s1)
      if largest = idx then return h
      else do
        let h' ← h._swap (idx : Int) (largest : Int)
        MaxHeap._sift_down_loop fuel h' size largest

/-- Python `MaxHeap._sift_down(idx)`. -/
def MaxHeap._sift_down (h : MaxHeap) (idx : Nat) : Except String MaxHeap :=
  MaxHeap._sift_down_loop (h._data.size + 1) h h._data.size idx

/-- Python `MaxHeap.push(value)`. -/
def MaxHeap.push (h : MaxHeap) (value : Option Int) : Except String MaxHeap := do
  let a := h._data.add value
  MaxHeap._sift_up ⟨a⟩ (a.size - 1)

/-- Python `MaxHeap.pop()`. -/
def MaxHeap.pop (h : MaxHeap) : Except String (Option Int × MaxHeap) :=
  if h._data.size = 0 then return (none, h)
  else do
    let top ← h._data.get 0
    let r := h._data.remove_last
    let last := r.1
    let a1 := r.2
    if 0 < a1.size then do
      let a2 ← a1.set 0 last
      let h' ← MaxHeap._sift_down ⟨a2⟩ 0
      return (top, h')
    else return (top, ⟨a1⟩)

/-- The multiset of currently contained elements, in array order. -/
def MaxHeap.contents (h : MaxHeap) : List (Option Int) := h._data.to_list

/-! ### Heap order theory -/

theorem except_bind_ok {α β : Type} (x : α) (f : α → Except String β) :
    (Except.ok x >>= f : Except String β) = f x := rfl

theorem except_pure {α : Type} (x : α) :
    (pure x : Except String α) = Except.ok x := rfl

theorem leVal_some (x y : Int) : leVal (some x) (some y) = .ok (decide (x ≤ y)) := rfl

theorem ltVal_some (x y : Int) : ltVal (some x) (some y) = .ok (decide (x < y)) := rfl

theorem geVal_some (x y : Int) : geVal (some x) (some y) = .ok (decide (y ≤ x)) := rfl

theorem gtVal_some (x y : Int) : gtVal (some x) (some y) = .ok (decide (y < x)) := rfl

/-- Min-heap order on the value list: every parent is `≤` both children
(children of `p` sit at `2p+1`, `2p+2`). -/
def MinOrdered (l : List Int) : Prop :=
  ∀ p c : Nat, c < l.length → (c = 2 * p + 1 ∨ c = 2 * p + 2) →
    l.getD p 0 ≤ l.getD c 0

/-- Max-heap order: every parent is `≥` both children. -/
def MaxOrdered (l : List Int) : Prop :=
  ∀ p c : Nat, c < l.length → (c = 2 * p + 1 ∨ c = 2 * p + 2) →
    l.getD c 0 ≤ l.getD p 0

theorem parent_child_arith (c : Nat) (h : 0 < c) :
    c = 2 * ((c - 1) / 2) + 1 ∨ c = 2 * ((c - 1) / 2) + 2 := by omega

theorem MinOrdered_root_le (l : List Int) (hord : MinOrdered l) :
    ∀ j, j < l.length → l.getD 0 0 ≤ l.getD j 0 := by
  intro j
  induction j using Nat.strong_induction_on with
  | _ j ih =>
      intro hj
      rcases Nat.eq_zero_or_pos j with h0 | hpos
      · subst h0
        exact le_refl _
      · have hpc := parent_child_arith j hpos
        have hplt : (j - 1) / 2 < j := by omega
        exact le_trans (ih _ hplt (by omega)) (hord _ j hj hpc)

theorem MaxOrdered_le_root (l : List Int) (hord : MaxOrdered l) :
    ∀ j, j < l.length → l.getD j 0 ≤ l.getD 0 0 := by
  intro j
  induction j using Nat.strong_induction_on with
  | _ j ih =>
      intro hj
      rcases Nat.eq_zero_or_pos j with h0 | hpos
      · subst h0
        exact le_refl _
      · have hpc := parent_child_arith j hpos
        have hplt : (j - 1) / 2 < j := by omega
        exact le_trans (hord _ j hj hpc) (ih _ hplt (by omega))

/-- Value of a list after the two `set`s performed by `_swap i j`. -/
theorem list_swap_getD (l : List Int) (i j k : Nat) (hi : i < l.length)
    (hj : j < l.length) :
    ((l.set i (l.getD j 0)).set j (l.getD i 0)).getD k 0
      = if j = k then l.getD i 0 else if i = k then l.getD j 0 else l.getD k 0 := by
  rw [list_getD_set, list_getD_set]
  simp only [List.length_set]
  by_cases h1 : j = k
  · rw [if_pos ⟨h1, hj⟩, if_pos h1]
  · rw [if_neg (by tauto), if_neg h1]
    by_cases h2 : i = k
    · rw [if_pos ⟨h2, hi⟩, if_pos h2]
    · rw [if_neg (by tauto), if_neg h2]

/-- Invariant maintained by `_sift_up` at cursor `i`: heap order holds for
every edge not pointing at `i`, and `i`s children (if any) are bounded below
by `i`s parent. -/
def UpOK (l : List Int) (i : Nat) : Prop :=
  (∀ p c : Nat, c < l.length → (c = 2 * p + 1 ∨ c = 2 * p + 2) → c ≠ i →
    l.getD p 0 ≤ l.getD c 0) ∧
  (∀ c : Nat, c < l.length → (c = 2 * i + 1 ∨ c = 2 * i + 2) → 0 < i →
    l.getD ((i - 1) / 2) 0 ≤ l.getD c 0)

theorem UpOK_zero_ordered (l : List Int) (h : UpOK l 0) : MinOrdered l := by
  intro p c hc hrel
  exact h.1 p c hc hrel (by omega)

theorem UpOK_stop_ordered (l : List Int) (i : Nat) (hpos : 0 < i)
    (h : UpOK l i) (hle : l.getD ((i - 1) / 2) 0 ≤ l.getD i 0) :
    MinOrdered l := by
  intro p c hc hrel
  by_cases hci : c = i
  · subst hci
    have hp : p = (c - 1) / 2 := by omega
    rw [hp]
    exact hle
  · exact h.1 p c hc hrel hci

theorem UpOK_swap (l : List Int) (i : Nat) (hpos : 0 < i) (hilen : i < l.length)
    (hup : UpOK l i) (hgt : l.getD i 0 < l.getD ((i - 1) / 2) 0) :
    UpOK ((l.set ((i - 1) / 2) (l.getD i 0)).set i (l.getD ((i - 1) / 2) 0))
      ((i - 1) / 2) := by
  have hplt : (i - 1) / 2 < i := by omega
  have hplen : (i - 1) / 2 < l.length := by omega
  have hpi : (i - 1) / 2 ≠ i := by omega
  have hg : ∀ k, ((l.set ((i - 1) / 2) (l.getD i 0)).set i
      (l.getD ((i - 1) / 2) 0)).getD k 0
        = if i = k then l.getD ((i - 1) / 2) 0
          else if (i - 1) / 2 = k then l.getD i 0 else l.getD k 0 := by
    intro k
    exact list_swap_getD l ((i - 1) / 2) i k hplen hilen
  constructor
  · intro q c hc hrel hcp
    simp only [List.length_set] at hc
    rw [hg q, hg c]
    by_cases hci : i = c
    · have hq : (i - 1) / 2 = q := by omega
      rw [if_neg (show ¬(i = q) by omega), if_pos hq, if_pos hci]
      exact le_of_lt hgt
    · rw [if_neg hci, if_neg (show ¬((i - 1) / 2 = c) from fun hx => hcp hx.symm)]
      by_cases hqi : i = q
      · rw [if_pos hqi]
        refine hup.2 c hc ?_ hpos
        rw [hqi]
        exact hrel
      · rw [if_neg hqi]
        by_cases hqp : (i - 1) / 2 = q
        · rw [if_pos hqp]
          refine le_trans (le_of_lt hgt) ?_
          rw [hqp]
          exact hup.1 q c hc hrel (fun hx => hci hx.symm)
        · rw [if_neg hqp]
          exact hup.1 q c hc hrel (fun hx => hci hx.symm)
  · intro c hc hrel hppos
    simp only [List.length_set] at hc
    rw [hg ((((i - 1) / 2) - 1) / 2), hg c]
    have hp_child := parent_child_arith ((i - 1) / 2) hppos
    have h1 : l.getD ((((i - 1) / 2) - 1) / 2) 0 ≤ l.getD ((i - 1) / 2) 0 :=
      hup.1 _ _ hplen hp_child hpi
    rw [if_neg (show ¬(i = (((i - 1) / 2) - 1) / 2) by omega),
      if_neg (show ¬((i - 1) / 2 = (((i - 1) / 2) - 1) / 2) by omega)]
    by_cases hci : i = c
    · rw [if_pos hci]
      exact h1
    · rw [if_neg hci, if_neg (show ¬((i - 1) / 2 = c) by omega)]
      exact le_trans h1 (hup.1 _ c hc hrel (fun hx => hci hx.symm))

/-- Invariant maintained by `_sift_down` at cursor `i`: heap order holds for
every edge not leaving `i`, and `i`s children are bounded below by `i`s
parent. -/
def DownOK (l : List Int) (i : Nat) : Prop :=
  (∀ p c : Nat, c < l.length → (c = 2 * p + 1 ∨ c = 2 * p + 2) → p ≠ i →
    l.getD p 0 ≤ l.getD c 0) ∧
  (∀ c : Nat, c < l.length → (c = 2 * i + 1 ∨ c = 2 * i + 2) → 0 < i →
    l.getD ((i - 1) / 2) 0 ≤ l.getD c 0)

theorem DownOK_stop_ordered (l : List Int) (i : Nat) (hdown : DownOK l i)
    (hchild : ∀ c, c < l.length → (c = 2 * i + 1 ∨ c = 2 * i + 2) →
      l.getD i 0 ≤ l.getD c 0) :
    MinOrdered l := by
  intro p c hc hrel
  by_cases hpi : p = i
  · subst hpi
    exact hchild c hc hrel
  · exact hdown.1 p c hc hrel hpi

theorem DownOK_swap (l : List Int) (i s2 : Nat) (hilen : i < l.length)
    (hs2len : s2 < l.length) (hs2 : s2 = 2 * i + 1 ∨ s2 = 2 * i + 2)
    (hdown : DownOK l i)
    (hle_idx : l.getD s2 0 ≤ l.getD i 0)
    (hle_l : ∀ c, c < l.length → (c = 2 * i + 1 ∨ c = 2 * i + 2) →
      l.getD s2 0 ≤ l.getD c 0) :
    DownOK ((l.set i (l.getD s2 0)).set s2 (l.getD i 0)) s2 := by
  have his2 : i < s2 := by omega
  have hg : ∀ k, ((l.set i (l.getD s2 0)).set s2 (l.getD i 0)).getD k 0
      = if s2 = k then l.getD i 0
        else if i = k then l.getD s2 0 else l.getD k 0 := by
    intro k
    exact list_swap_getD l i s2 k hilen hs2len
  constructor
  · intro q c hc hrel hq_ne
    simp only [List.length_set] at hc
    rw [hg q, hg c]
    rw [if_neg (show ¬(s2 = q) from fun hx => hq_ne hx.symm)]
    by_cases hqi : i = q
    · rw [if_pos hqi]
      by_cases hcs : s2 = c
      · rw [if_pos hcs]
        exact hle_idx
      · rw [if_neg hcs, if_neg (show ¬(i = c) by omega)]
        refine hle_l c hc ?_
        rw [hqi]
        exact hrel
    · rw [if_neg hqi]
      by_cases hcs : s2 = c
      · exfalso
        omega
      · rw [if_neg hcs]
        by_cases hic : i = c
        · rw [if_pos hic]
          have hipos : 0 < i := by omega
          have hq : q = (i - 1) / 2 := by omega
          rw [hq]
          exact hdown.2 s2 hs2len hs2 hipos
        · rw [if_neg hic]
          exact hdown.1 q c hc hrel (fun hx => hqi hx.symm)
  · intro c hc hrel hs2pos
    simp only [List.length_set] at hc
    rw [hg (((s2 - 1) / 2)), hg c]
    have hgp : (s2 - 1) / 2 = i := by omega
    rw [if_neg (show ¬(s2 = (s2 - 1) / 2) by omega), if_pos hgp.symm,
      if_neg (show ¬(s2 = c) by omega), if_neg (show ¬(i = c) by omega)]
    exact hdown.1 s2 c hc hrel (by omega)

/-! ### Monadic specifications of the `MinHeap` internals -/

theorem ArrayList.vals_length (a : ArrayList) (l : List Int) (hW : a.WF)
    (ht : a.to_list = l.map some) : l.length = a._size := by
  have h1 := ArrayList.to_list_length a hW
  rw [ht] at h1
  simpa using h1

theorem ArrayList.get_vals (a : ArrayList) (l : List Int) (i : Nat) (hW : a.WF)
    (ht : a.to_list = l.map some) (hi : i < a._size) :
    a.get (i : Int) = .ok (some (l.getD i 0)) := by
  rw [ArrayList.get_spec a i hW hi, ht]
  have hlen := ArrayList.vals_length a l hW ht
  rw [list_getD_map_some l i (by omega)]

theorem MinHeap._swap_spec_min (h : MinHeap) (l : List Int) (i j : Nat)
    (hW : h._data.WF) (ht : h._data.to_list = l.map some)
    (hi : i < h._data._size) (hj : j < h._data._size) :
    ∃ a' : ArrayList, h._swap (i : Int) (j : Int) = .ok ⟨a'⟩ ∧ a'.WF ∧
      a'._size = h._data._size ∧
      a'.to_list = ((l.set i (l.getD j 0)).set j (l.getD i 0)).map some := by
  have hgi := ArrayList.get_vals h._data l i hW ht hi
  have hgj := ArrayList.get_vals h._data l j hW ht hj
  obtain ⟨a1, hset1, hW1, hs1, hc1, ht1⟩ :=
    ArrayList.set_spec h._data i (some (l.getD j 0)) hW hi
  obtain ⟨a2, hset2, hW2, hs2, hc2, ht2⟩ :=
    ArrayList.set_spec a1 j (some (l.getD i 0)) hW1 (by omega)
  refine ⟨a2, ?_, hW2, by omega, ?_⟩
  · unfold MinHeap._swap
    simp only [hgi, hgj, except_bind_ok]
    rw [hset1]
    simp only [except_bind_ok]
    rw [hset2]
    simp only [except_bind_ok]
    rfl
  · rw [ht2, ht1, ht, List.map_set, List.map_set]

theorem MinHeap._sift_up_spec_min : ∀ (idx : Nat) (h : MinHeap) (l : List Int),
    h._data.WF → h._data.to_list = l.map some → idx < h._data._size →
    UpOK l idx →
    ∃ (h' : MinHeap) (l' : List Int), h._sift_up idx = .ok h' ∧
      h'._data.WF ∧ h'._data.to_list = l'.map some ∧
      h'._data._size = h._data._size ∧ MinOrdered l' ∧ l'.Perm l := by
  intro idx
  induction idx using Nat.strong_induction_on with
  | _ idx ih =>
      intro h l hW ht hidx hup
      have hlen := ArrayList.vals_length h._data l hW ht
      by_cases hpos : 0 < idx
      · have hplt : (idx - 1) / 2 < idx := by omega
        have hpi : (idx - 1) / 2 < h._data._size := by omega
        have hgp := ArrayList.get_vals h._data l ((idx - 1) / 2) hW ht hpi
        have hgi := ArrayList.get_vals h._data l idx hW ht hidx
        by_cases hle : l.getD ((idx - 1) / 2) 0 ≤ l.getD idx 0
        · refine ⟨h, l, ?_, hW, ht, rfl, UpOK_stop_ordered l idx hpos hup hle,
            List.Perm.refl l⟩
          unfold MinHeap._sift_up
          rw [dif_pos hpos]
          simp only [hgp, hgi, except_bind_ok, leVal_some, decide_eq_true_eq]
          rw [if_pos hle]
          rfl
        · have hgt : l.getD idx 0 < l.getD ((idx - 1) / 2) 0 := by omega
          obtain ⟨a', hsw, hW', hs', ht'⟩ :=
            MinHeap._swap_spec_min h l ((idx - 1) / 2) idx hW ht hpi hidx
          have hup2 := UpOK_swap l idx hpos (by omega) hup hgt
          obtain ⟨h', l', hrun, hW2, ht2, hs2, hord, hperm⟩ :=
            ih ((idx - 1) / 2) hplt ⟨a'⟩ _ hW' ht' (by show _ < a'._size; omega) hup2
          refine ⟨h', l', ?_, hW2, ht2, ?_, hord, ?_⟩
          · unfold MinHeap._sift_up
            rw [dif_pos hpos]
            simp only [hgp, hgi, except_bind_ok, leVal_some, decide_eq_true_eq]
            rw [if_neg hle, hsw]
            simp only [except_bind_ok]
            exact hrun
          · rw [hs2]
            exact hs'
          · exact hperm.trans
              (list_swap_perm l ((idx - 1) / 2) idx (by omega) (by omega))
      · have h0 : idx = 0 := by omega
        subst h0
        refine ⟨h, l, ?_, hW, ht, rfl, UpOK_zero_ordered l hup, List.Perm.refl l⟩
        unfold MinHeap._sift_up
        rw [dif_neg hpos]
        rfl

/-- Heap representation invariant: well-formed backing array whose occupied
slots hold exactly the values `l` (all non-`None`), in min-heap order. -/
def MinHeap.Rep (h : MinHeap) (l : List Int) : Prop :=
  h._data.WF ∧ h._data.to_list = l.map some ∧ MinOrdered l

theorem MinHeap.init_Rep_min : MinHeap.init.Rep [] := by
  refine ⟨ArrayList.init_WF defaultCapacity, ?_, ?_⟩
  · rw [show MinHeap.init._data = ArrayList.initDefault from rfl]
    rfl
  · intro p c hc hrel
    simp at hc
theorem MinHeap.push_spec_min (h : MinHeap) (l : List Int) (v : Int) (hr : h.Rep l) :
    ∃ (h' : MinHeap) (l' : List Int), h.push (some v) = .ok h' ∧ h'.Rep l' ∧
      l'.Perm (l ++ [v]) := by
  obtain ⟨hW, ht, hord⟩ := hr
  obtain ⟨hWa, hsa, hta⟩ := ArrayList.add_spec h._data (some v) hW
  have hlen := ArrayList.vals_length h._data l hW ht
  have hta' : (h._data.add (some v)).to_list = (l ++ [v]).map some := by
    rw [hta, ht]
    simp
  have hup : UpOK (l ++ [v]) l.length := by
    constructor
    · intro p c hc hrel hne
      simp only [List.length_append, List.length_cons, List.length_nil] at hc
      have hc' : c < l.length := by omega
      have hp' : p < l.length := by omega
      rw [list_getD_append_left _ _ _ _ hp', list_getD_append_left _ _ _ _ hc']
      exact hord p c hc' hrel
    · intro c hc hrel hpos
      exfalso
      simp only [List.length_append, List.length_cons, List.length_nil] at hc
      omega
  obtain ⟨h', l', hrun, hW2, ht2, hs2, hord2, hperm⟩ :=
    MinHeap._sift_up_spec_min l.length ⟨h._data.add (some v)⟩ (l ++ [v]) hWa hta'
      (by show l.length < (h._data.add (some v))._size; omega) hup
  refine ⟨h', l', ?_, ⟨hW2, ht2, hord2⟩, hperm⟩
  unfold MinHeap.push
  show MinHeap._sift_up ⟨h._data.add (some v)⟩ ((h._data.add (some v)).size - 1)
    = .ok h'
  have hidx : (h._data.add (some v)).size - 1 = l.length := by
    unfold ArrayList.size
    omega
  rw [hidx]
  exact hrun

theorem MinHeap._sel_spec_min (h : MinHeap) (l : List Int) (size cand child : Nat)
    (hW : h._data.WF) (ht : h._data.to_list = l.map some) (hsz : size = l.length)
    (hcand : cand < size) :
    ∃ sel : Nat,
      (if child < size then do
          let cv ← h._data.get (child : Int)
          let sv ← h._data.get (cand : Int)
          let b ← ltVal cv sv
          pure (if b then child else cand)
        else pure cand) = .ok sel ∧
      sel < size ∧ (sel = cand ∨ sel = child) ∧
      l.getD sel 0 ≤ l.getD cand 0 ∧
      (child < size → l.getD sel 0 ≤ l.getD child 0) := by
  have hlen := ArrayList.vals_length h._data l hW ht
  by_cases hc : child < size
  · have hgc := ArrayList.get_vals h._data l child hW ht (by omega)
    have hgs := ArrayList.get_vals h._data l cand hW ht (by omega)
    rw [if_pos hc]
    simp only [hgc, hgs, except_bind_ok, ltVal_some, decide_eq_true_eq]
    by_cases hlt : l.getD child 0 < l.getD cand 0
    · rw [if_pos hlt]
      exact ⟨child, rfl, hc, Or.inr rfl, le_of_lt hlt, fun _ => le_refl _⟩
    · rw [if_neg hlt]
      exact ⟨cand, rfl, hcand, Or.inl rfl, le_refl _, fun _ => by omega⟩
  · rw [if_neg hc]
    exact ⟨cand, rfl, hcand, Or.inl rfl, le_refl _, fun hx => absurd hx hc⟩

theorem MinHeap._sift_down_loop_spec_min : ∀ (fuel : Nat) (h : MinHeap)
    (size idx : Nat) (l : List Int),
    h._data.WF → h._data.to_list = l.map some → size = l.length →
    idx < size → size ≤ fuel + idx → DownOK l idx →
    ∃ (h' : MinHeap) (l' : List Int),
      MinHeap._sift_down_loop fuel h size idx = .ok h' ∧
      h'._data.WF ∧ h'._data.to_list = l'.map some ∧
      h'._data._size = h._data._size ∧ MinOrdered l' ∧ l'.Perm l := by
  intro fuel
  induction fuel with
  | zero =>
      intro h size idx l _ _ _ hidx hfuel _
      omega
  | succ fuel ih =>
      intro h size idx l hW ht hsz hidx hfuel hdown
      have hlen := ArrayList.vals_length h._data l hW ht
      obtain ⟨s1v, hE1, hs1_lt, hs1_cases, hs1_le_cand, hs1_le_child⟩ :=
        MinHeap._sel_spec_min h l size idx (idx * 2 + 1) hW ht hsz hidx
      obtain ⟨s2v, hE2, hs2_lt, hs2_cases, hs2_le_s1, hs2_le_child2⟩ :=
        MinHeap._sel_spec_min h l size s1v (idx * 2 + 2) hW ht hsz hs1_lt
      have hs2_le_idx : l.getD s2v 0 ≤ l.getD idx 0 :=
        le_trans hs2_le_s1 hs1_le_cand
      have hs2_le_L : idx * 2 + 1 < size → l.getD s2v 0 ≤ l.getD (idx * 2 + 1) 0 :=
        fun hx => le_trans hs2_le_s1 (hs1_le_child hx)
      have hs2_all : s2v = idx ∨ s2v = idx * 2 + 1 ∨ s2v = idx * 2 + 2 := by
        rcases hs2_cases with h2 | h2
        · rcases hs1_cases with h1 | h1
          · exact Or.inl (h2.trans h1)
          · exact Or.inr (Or.inl (h2.trans h1))
        · exact Or.inr (Or.inr h2)
      have hle_l : ∀ c, c < l.length → (c = 2 * idx + 1 ∨ c = 2 * idx + 2) →
          l.getD s2v 0 ≤ l.getD c 0 := by
        intro c hcl hrel
        have : c = idx * 2 + 1 ∨ c = idx * 2 + 2 := by omega
        rcases this with hce | hce
        · subst hce
          exact hs2_le_L (by omega)
        · subst hce
          exact hs2_le_child2 (by omega)
      have hstep : MinHeap._sift_down_loop (fuel + 1) h size idx
          = (if s2v = idx then pure h
             else do
               let h' ← h._swap (idx : Int) (s2v : Int)
               MinHeap._sift_down_loop fuel h' size s2v) := by
        simp only [MinHeap._sift_down_loop]
        rw [hE1]
        simp only [except_bind_ok]
        rw [hE2]
        simp only [except_bind_ok]
      by_cases hstop : s2v = idx
      · rw [if_pos hstop] at hstep
        refine ⟨h, l, by rw [hstep]; rfl, hW, ht, rfl, ?_, List.Perm.refl l⟩
        refine DownOK_stop_ordered l idx hdown ?_
        intro c hcl hrel
        rw [← hstop]
        exact hle_l c hcl hrel
      · rw [if_neg hstop] at hstep
        have hchild : s2v = 2 * idx + 1 ∨ s2v = 2 * idx + 2 := by omega
        have hs2_idxlt : idx < s2v := by omega
        obtain ⟨a', hsw, hW', hs', ht'⟩ :=
          MinHeap._swap_spec_min h l idx s2v hW ht (by omega) (by omega)
        have hdown2 := DownOK_swap l idx s2v (by omega) (by omega) hchild hdown
          hs2_le_idx hle_l
        obtain ⟨h', l', hrun, hW2, ht2, hs2, hord, hperm⟩ :=
          ih ⟨a'⟩ size s2v _ hW' ht' (by simp only [List.length_set]; omega)
            hs2_lt (by omega) hdown2
        refine ⟨h', l', ?_, hW2, ht2, ?_, hord, ?_⟩
        · rw [hstep, hsw]
          simp only [except_bind_ok]
          exact hrun
        · rw [hs2]
          exact hs'
        · exact hperm.trans (list_swap_perm l idx s2v (by omega) (by omega))

theorem list_getD_dropLast (l : List Int) (k : Nat) (hk : k < l.length - 1) :
    l.dropLast.getD k 0 = l.getD k 0 := by
  rw [List.dropLast_eq_take, list_getD_take _ _ _ _ hk]

theorem list_eq_dropLast_append (l : List Int) (hne : l ≠ []) :
    l = l.dropLast ++ [l.getD (l.length - 1) 0] := by
  have hlpos : 0 < l.length := List.length_pos.mpr hne
  have hgl : l.getLast hne = l.getD (l.length - 1) 0 := by
    rw [List.getLast_eq_getElem]
    rw [List.getD_eq_getElem?_getD, List.getElem?_eq_getElem (by omega)]
    rfl
  conv_lhs => rw [← List.dropLast_append_getLast hne]
  rw [hgl]

theorem MinHeap.pop_empty (h : MinHeap) (hr : h.Rep []) : h.pop = .ok (none, h) := by
  obtain ⟨hW, ht, -⟩ := hr
  have hsz : ([] : List Int).length = h._data._size :=
    ArrayList.vals_length h._data [] hW ht
  simp only [List.length_nil] at hsz
  unfold MinHeap.pop
  rw [if_pos (show h._data.size = 0 by unfold ArrayList.size; omega)]
  rfl

theorem MinHeap.peek_empty_min (h : MinHeap) (hsz : h._data._size = 0) :
    h.peek = .ok none := by
  unfold MinHeap.peek
  rw [if_pos (show h._data.size = 0 from hsz)]
  rfl

theorem MinHeap.peek_spec_min (h : MinHeap) (l : List Int) (hr : h.Rep l)
    (hne : l ≠ []) : h.peek = .ok (some (l.getD 0 0)) := by
  obtain ⟨hW, ht, -⟩ := hr
  have hlen := ArrayList.vals_length h._data l hW ht
  have hlpos : 0 < l.length := List.length_pos.mpr hne
  unfold MinHeap.peek
  rw [if_neg (show ¬(h._data.size = 0) by unfold ArrayList.size; omega)]
  exact ArrayList.get_vals h._data l 0 hW ht (by omega)

theorem MinHeap.pop_spec_min (h : MinHeap) (l : List Int) (hr : h.Rep l)
    (hne : l ≠ []) :
    ∃ (h' : MinHeap) (l' : List Int),
      h.pop = .ok (some (l.getD 0 0), h') ∧ h'.Rep l' ∧
      (l.getD 0 0 :: l').Perm l := by
  obtain ⟨hW, ht, hord⟩ := hr
  have hlen := ArrayList.vals_length h._data l hW ht
  have hlpos : 0 < l.length := List.length_pos.mpr hne
  have hg0 : h._data.get (0 : Int) = .ok (some (l.getD 0 0)) :=
    ArrayList.get_vals h._data l 0 hW ht (by omega)
  obtain ⟨a1, hrm, hW1, hs1, ht1⟩ := ArrayList.remove_last_spec h._data hW (by omega)
  have hlast : h._data.to_list.getD (h._data._size - 1) none
      = some (l.getD (l.length - 1) 0) := by
    rw [ht, show h._data._size - 1 = l.length - 1 from by omega]
    exact list_getD_map_some l (l.length - 1) (by omega)
  have ht1' : a1.to_list = l.dropLast.map some := by
    rw [ht1, ht]
    conv_rhs => rw [show l.dropLast.map some = (l.map some).dropLast from by
      cases l with
      | nil => rfl
      | cons a t => simp [List.dropLast_eq_take, List.map_take]]
  unfold MinHeap.pop
  rw [if_neg (show ¬(h._data.size = 0) by unfold ArrayList.size; omega)]
  simp only [hg0, except_bind_ok, hrm, hlast]
  by_cases hone : l.length = 1
  · have ha1sz : a1.size = 0 := by
      unfold ArrayList.size
      omega
    rw [if_neg (by omega)]
    obtain ⟨x, hx⟩ : ∃ x, l = [x] := by
      cases l with
      | nil => exact absurd rfl hne
      | cons a t =>
          refine ⟨a, ?_⟩
          simp at hone
          rw [hone]
    subst hx
    refine ⟨⟨a1⟩, [], rfl, ⟨hW1, ?_, ?_⟩, ?_⟩
    · rw [ht1']
      rfl
    · intro p c hc hrel
      simp at hc
    · simp
  · have ha1pos : 0 < a1.size := by
      unfold ArrayList.size
      omega
    rw [if_pos ha1pos]
    obtain ⟨a2, hset, hW2, hs2, hc2, ht2⟩ :=
      ArrayList.set_spec a1 0 (some (l.getD (l.length - 1) 0)) hW1
        (by unfold ArrayList.size at ha1pos; omega)
    have ht2' : a2.to_list
        = (l.dropLast.set 0 (l.getD (l.length - 1) 0)).map some := by
      rw [ht2, ht1', List.map_set]
    have hdown : DownOK (l.dropLast.set 0 (l.getD (l.length - 1) 0)) 0 := by
      constructor
      · intro p c hc hrel hp0
        simp only [List.length_set, List.length_dropLast] at hc
        rw [list_getD_set, list_getD_set]
        rw [if_neg (by omega), if_neg (by omega)]
        rw [list_getD_dropLast l p (by omega), list_getD_dropLast l c (by omega)]
        exact hord p c (by omega) hrel
      · intro c hc hrel hpos0
        omega
    obtain ⟨h', l', hrun, hW3, ht3, hs3, hord3, hperm3⟩ :=
      MinHeap._sift_down_loop_spec_min (a2.size + 1) ⟨a2⟩ a2.size 0
        (l.dropLast.set 0 (l.getD (l.length - 1) 0)) hW2 ht2'
        (by unfold ArrayList.size; simp; omega)
        (by unfold ArrayList.size; omega)
        (by omega) hdown
    have hset' : a1.set (0 : Int) (some (l.getD (l.length - 1) 0))
        = Except.ok a2 := hset
    refine ⟨h', l', ?_, ⟨hW3, ht3, hord3⟩, ?_⟩
    · rw [hset']
      simp only [except_bind_ok]
      have hsd : MinHeap._sift_down ⟨a2⟩ 0 = .ok h' := by
        unfold MinHeap._sift_down
        exact hrun
      rw [hsd]
      simp only [except_bind_ok]
      rfl
    · rw [List.perm_iff_count]
      intro x
      have hcnt := hperm3.count_eq x
      have hc2x := list_count_set_add l.dropLast 0 (l.getD (l.length - 1) 0) x
        (by simp only [List.length_dropLast]; omega)
      have hd0 : l.dropLast.getD 0 0 = l.getD 0 0 :=
        list_getD_dropLast l 0 (by omega)
      have hsplit : l.count x = l.dropLast.count x
          + (if l.getD (l.length - 1) 0 = x then 1 else 0) := by
        conv_lhs => rw [list_eq_dropLast_append l hne]
        simp only [List.count_append, List.count_cons, List.count_nil,
          beq_iff_eq, Nat.zero_add]
      rw [hd0] at hc2x
      rw [List.count_cons]
      simp only [beq_iff_eq]
      rw [hcnt]
      split_ifs at hc2x hsplit ⊢ <;> omega

/-! ### Max-heap order theory (mirror of the min-heap lemmas) -/

/-- Python `_sift_up` invariant for `MaxHeap` (all comparisons flipped). -/
def UpOKMax (l : List Int) (i : Nat) : Prop :=
  (∀ p c : Nat, c < l.length → (c = 2 * p + 1 ∨ c = 2 * p + 2) → c ≠ i →
    l.getD c 0 ≤ l.getD p 0) ∧
  (∀ c : Nat, c < l.length → (c = 2 * i + 1 ∨ c = 2 * i + 2) → 0 < i →
    l.getD c 0 ≤ l.getD ((i - 1) / 2) 0)

theorem UpOKMax_zero_ordered (l : List Int) (h : UpOKMax l 0) : MaxOrdered l := by
  intro p c hc hrel
  exact h.1 p c hc hrel (by omega)

theorem UpOKMax_stop_ordered (l : List Int) (i : Nat) (hpos : 0 < i)
    (h : UpOKMax l i) (hle : l.getD i 0 ≤ l.getD ((i - 1) / 2) 0) :
    MaxOrdered l := by
  intro p c hc hrel
  by_cases hci : c = i
  · subst hci
    have hp : p = (c - 1) / 2 := by omega
    rw [hp]
    exact hle
  · exact h.1 p c hc hrel hci

theorem UpOKMax_swap (l : List Int) (i : Nat) (hpos : 0 < i) (hilen : i < l.length)
    (hup : UpOKMax l i) (hgt : l.getD ((i - 1) / 2) 0 < l.getD i 0) :
    UpOKMax ((l.set ((i - 1) / 2) (l.getD i 0)).set i (l.getD ((i - 1) / 2) 0))
      ((i - 1) / 2) := by
  have hplt : (i - 1) / 2 < i := by omega
  have hplen : (i - 1) / 2 < l.length := by omega
  have hpi : (i - 1) / 2 ≠ i := by omega
  have hg : ∀ k, ((l.set ((i - 1) / 2) (l.getD i 0)).set i
      (l.getD ((i - 1) / 2) 0)).getD k 0
        = if i = k then l.getD ((i - 1) / 2) 0
          else if (i - 1) / 2 = k then l.getD i 0 else l.getD k 0 := by
    intro k
    exact list_swap_getD l ((i - 1) / 2) i k hplen hilen
  constructor
  · intro q c hc hrel hcp
    simp only [List.length_set] at hc
    rw [hg q, hg c]
    by_cases hci : i = c
    · have hq : (i - 1) / 2 = q := by omega
      rw [if_neg (show ¬(i = q) by omega), if_pos hq, if_pos hci]
      exact le_of_lt hgt
    · rw [if_neg hci, if_neg (show ¬((i - 1) / 2 = c) from fun hx => hcp hx.symm)]
      by_cases hqi : i = q
      · rw [if_pos hqi]
        refine hup.2 c hc ?_ hpos
        rw [hqi]
        exact hrel
      · rw [if_neg hqi]
        by_cases hqp : (i - 1) / 2 = q
        · rw [if_pos hqp]
          refine le_trans ?_ (le_of_lt hgt)
          rw [hqp]
          exact hup.1 q c hc hrel (fun hx => hci hx.symm)
        · rw [if_neg hqp]
          exact hup.1 q c hc hrel (fun hx => hci hx.symm)
  · intro c hc hrel hppos
    simp only [List.length_set] at hc
    rw [hg ((((i - 1) / 2) - 1) / 2), hg c]
    have hp_child := parent_child_arith ((i - 1) / 2) hppos
    have h1 : l.getD ((i - 1) / 2) 0 ≤ l.getD ((((i - 1) / 2) - 1) / 2) 0 :=
      hup.1 _ _ hplen hp_child hpi
    rw [if_neg (show ¬(i = (((i - 1) / 2) - 1) / 2) by omega),
      if_neg (show ¬((i - 1) / 2 = (((i - 1) / 2) - 1) / 2) by omega)]
    by_cases hci : i = c
    · rw [if_pos hci]
      exact h1
    · rw [if_neg hci, if_neg (show ¬((i - 1) / 2 = c) by omega)]
      exact le_trans (hup.1 _ c hc hrel (fun hx => hci hx.symm)) h1

/-- Python `_sift_down` invariant for `MaxHeap`. -/
def DownOKMax (l : List Int) (i : Nat) : Prop :=
  (∀ p c : Nat, c < l.length → (c = 2 * p + 1 ∨ c = 2 * p + 2) → p ≠ i →
    l.getD c 0 ≤ l.getD p 0) ∧
  (∀ c : Nat, c < l.length → (c = 2 * i + 1 ∨ c = 2 * i + 2) → 0 < i →
    l.getD c 0 ≤ l.getD ((i - 1) / 2) 0)

theorem DownOKMax_stop_ordered (l : List Int) (i : Nat) (hdown : DownOKMax l i)
    (hchild : ∀ c, c < l.length → (c = 2 * i + 1 ∨ c = 2 * i + 2) →
      l.getD c 0 ≤ l.getD i 0) :
    MaxOrdered l := by
  intro p c hc hrel
  by_cases hpi : p = i
  · subst hpi
    exact hchild c hc hrel
  · exact hdown.1 p c hc hrel hpi

theorem DownOKMax_swap (l : List Int) (i s2 : Nat) (hilen : i < l.length)
    (hs2len : s2 < l.length) (hs2 : s2 = 2 * i + 1 ∨ s2 = 2 * i + 2)
    (hdown : DownOKMax l i)
    (hle_idx : l.getD i 0 ≤ l.getD s2 0)
    (hle_l : ∀ c, c < l.length → (c = 2 * i + 1 ∨ c = 2 * i + 2) →
      l.getD c 0 ≤ l.getD s2 0) :
    DownOKMax ((l.set i (l.getD s2 0)).set s2 (l.getD i 0)) s2 := by
  have his2 : i < s2 := by omega
  have hg : ∀ k, ((l.set i (l.getD s2 0)).set s2 (l.getD i 0)).getD k 0
      = if s2 = k then l.getD i 0
        else if i = k then l.getD s2 0 else l.getD k 0 := by
    intro k
    exact list_swap_getD l i s2 k hilen hs2len
  constructor
  · intro q c hc hrel hq_ne
    simp only [List.length_set] at hc
    rw [hg q, hg c]
    rw [if_neg (show ¬(s2 = q) from fun hx => hq_ne hx.symm)]
    by_cases hqi : i = q
    · rw [if_pos hqi]
      by_cases hcs : s2 = c
      · rw [if_pos hcs]
        exact hle_idx
      · rw [if_neg hcs, if_neg (show ¬(i = c) by omega)]
        refine hle_l c hc ?_
        rw [hqi]
        exact hrel
    · rw [if_neg hqi]
      by_cases hcs : s2 = c
      · exfalso
        omega
      · rw [if_neg hcs]
        by_cases hic : i = c
        · rw [if_pos hic]
          have hipos : 0 < i := by omega
          have hq : q = (i - 1) / 2 := by omega
          rw [hq]
          exact hdown.2 s2 hs2len hs2 hipos
        · rw [if_neg hic]
          exact hdown.1 q c hc hrel (fun hx => hqi hx.symm)
  · intro c hc hrel hs2pos
    simp only [List.length_set] at hc
    rw [hg (((s2 - 1) / 2)), hg c]
    have hgp : (s2 - 1) / 2 = i := by omega
    rw [if_neg (show ¬(s2 = (s2 - 1) / 2) by omega), if_pos hgp.symm,
      if_neg (show ¬(s2 = c) by omega), if_neg (show ¬(i = c) by omega)]
    exact hdown.1 s2 c hc hrel (by omega)

/-! ### Monadic specifications of the `MaxHeap` internals -/

theorem MaxHeap._swap_spec_max (h : MaxHeap) (l : List Int) (i j : Nat)
    (hW : h._data.WF) (ht : h._data.to_list = l.map some)
    (hi : i < h._data._size) (hj : j < h._data._size) :
    ∃ a' : ArrayList, h._swap (i : Int) (j : Int) = .ok ⟨a'⟩ ∧ a'.WF ∧
      a'._size = h._data._size ∧
      a'.to_list = ((l.set i (l.getD j 0)).set j (l.getD i 0)).map some := by
  have hgi := ArrayList.get_vals h._data l i hW ht hi
  have hgj := ArrayList.get_vals h._data l j hW ht hj
  obtain ⟨a1, hset1, hW1, hs1, hc1, ht1⟩ :=
    ArrayList.set_spec h._data i (some (l.getD j 0)) hW hi
  obtain ⟨a2, hset2, hW2, hs2, hc2, ht2⟩ :=
    ArrayList.set_spec a1 j (some (l.getD i 0)) hW1 (by omega)
  refine ⟨a2, ?_, hW2, by omega, ?_⟩
  · unfold MaxHeap._swap
    simp only [hgi, hgj, except_bind_ok]
    rw [hset1]
    simp only [except_bind_ok]
    rw [hset2]
    simp only [except_bind_ok]
    rfl
  · rw [ht2, ht1, ht, List.map_set, List.map_set]

theorem MaxHeap._sift_up_spec_max : ∀ (idx : Nat) (h : MaxHeap) (l : List Int),
    h._data.WF → h._data.to_list = l.map some → idx < h._data._size →
    UpOKMax l idx →
    ∃ (h' : MaxHeap) (l' : List Int), h._sift_up idx = .ok h' ∧
      h'._data.WF ∧ h'._data.to_list = l'.map some ∧
      h'._data._size = h._data._size ∧ MaxOrdered l' ∧ l'.Perm l := by
  intro idx
  induction idx using Nat.strong_induction_on with
  | _ idx ih =>
      intro h l hW ht hidx hup
      have hlen := ArrayList.vals_length h._data l hW ht
      by_cases hpos : 0 < idx
      · have hplt : (idx - 1) / 2 < idx := by omega
        have hpi : (idx - 1) / 2 < h._data._size := by omega
        have hgp := ArrayList.get_vals h._data l ((idx - 1) / 2) hW ht hpi
        have hgi := ArrayList.get_vals h._data l idx hW ht hidx
        by_cases hle : l.getD idx 0 ≤ l.getD ((idx - 1) / 2) 0
        · refine ⟨h, l, ?_, hW, ht, rfl, UpOKMax_stop_ordered l idx hpos hup hle,
            List.Perm.refl l⟩
          unfold MaxHeap._sift_up
          rw [dif_pos hpos]
          simp only [hgp, hgi, except_bind_ok, geVal_some, decide_eq_true_eq]
          rw [if_pos hle]
          rfl
        · have hgt : l.getD ((idx - 1) / 2) 0 < l.getD idx 0 := by omega
          obtain ⟨a', hsw, hW', hs', ht'⟩ :=
            MaxHeap._swap_spec_max h l ((idx - 1) / 2) idx hW ht hpi hidx
          have hup2 := UpOKMax_swap l idx hpos (by omega) hup hgt
          obtain ⟨h', l', hrun, hW2, ht2, hs2, hord, hperm⟩ :=
            ih ((idx - 1) / 2) hplt ⟨a'⟩ _ hW' ht' (by show _ < a'._size; omega) hup2
          refine ⟨h', l', ?_, hW2, ht2, ?_, hord, ?_⟩
          · unfold MaxHeap._sift_up
            rw [dif_pos hpos]
            simp only [hgp, hgi, except_bind_ok, geVal_some, decide_eq_true_eq]
            rw [if_neg hle, hsw]
            simp only [except_bind_ok]
            exact hrun
          · rw [hs2]
            exact hs'
          · exact hperm.trans
              (list_swap_perm l ((idx - 1) / 2) idx (by omega) (by omega))
      · have h0 : idx = 0 := by omega
        subst h0
        refine ⟨h, l, ?_, hW, ht, rfl, UpOKMax_zero_ordered l hup, List.Perm.refl l⟩
        unfold MaxHeap._sift_up
        rw [dif_neg hpos]
        rfl

theorem MaxHeap._sel_spec_max (h : MaxHeap) (l : List Int) (size cand child : Nat)
    (hW : h._data.WF) (ht : h._data.to_list = l.map some) (hsz : size = l.length)
    (hcand : cand < size) :
    ∃ sel : Nat,
      (if child < size then do
          let cv ← h._data.get (child : Int)
          let sv ← h._data.get (cand : Int)
          let b ← gtVal cv sv
          pure (if b then child else cand)
        else pure cand) = .ok sel ∧
      sel < size ∧ (sel = cand ∨ sel = child) ∧
      l.getD cand 0 ≤ l.getD sel 0 ∧
      (child < size → l.getD child 0 ≤ l.getD sel 0) := by
  have hlen := ArrayList.vals_length h._data l hW ht
  by_cases hc : child < size
  · have hgc := ArrayList.get_vals h._data l child hW ht (by omega)
    have hgs := ArrayList.get_vals h._data l cand hW ht (by omega)
    rw [if_pos hc]
    simp only [hgc, hgs, except_bind_ok, gtVal_some, decide_eq_true_eq]
    by_cases hlt : l.getD cand 0 < l.getD child 0
    · rw [if_pos hlt]
      exact ⟨child, rfl, hc, Or.inr rfl, le_of_lt hlt, fun _ => le_refl _⟩
    · rw [if_neg hlt]
      exact ⟨cand, rfl, hcand, Or.inl rfl, le_refl _, fun _ => by omega⟩
  · rw [if_neg hc]
    exact ⟨cand, rfl, hcand, Or.inl rfl, le_refl _, fun hx => absurd hx hc⟩

theorem MaxHeap._sift_down_loop_spec_max : ∀ (fuel : Nat) (h : MaxHeap)
    (size idx : Nat) (l : List Int),
    h._data.WF → h._data.to_list = l.map some → size = l.length →
    idx < size → size ≤ fuel + idx → DownOKMax l idx →
    ∃ (h' : MaxHeap) (l' : List Int),
      MaxHeap._sift_down_loop fuel h size idx = .ok h' ∧
      h'._data.WF ∧ h'._data.to_list = l'.map some ∧
      h'._data._size = h._data._size ∧ MaxOrdered l' ∧ l'.Perm l := by
  intro fuel
  induction fuel with
  | zero =>
      intro h size idx l _ _ _ hidx hfuel _
      omega
  | succ fuel ih =>
      intro h size idx l hW ht hsz hidx hfuel hdown
      have hlen := ArrayList.vals_length h._data l hW ht
      obtain ⟨s1v, hE1, hs1_lt, hs1_cases, hs1_le_cand, hs1_le_child⟩ :=
        MaxHeap._sel_spec_max h l size idx (idx * 2 + 1) hW ht hsz hidx
      obtain ⟨s2v, hE2, hs2_lt, hs2_cases, hs2_le_s1, hs2_le_child2⟩ :=
        MaxHeap._sel_spec_max h l size s1v (idx * 2 + 2) hW ht hsz hs1_lt
      have hs2_le_idx : l.getD idx 0 ≤ l.getD s2v 0 :=
        le_trans hs1_le_cand hs2_le_s1
      have hs2_le_L : idx * 2 + 1 < size → l.getD (idx * 2 + 1) 0 ≤ l.getD s2v 0 :=
        fun hx => le_trans (hs1_le_child hx) hs2_le_s1
      have hs2_all : s2v = idx ∨ s2v = idx * 2 + 1 ∨ s2v = idx * 2 + 2 := by
        rcases hs2_cases with h2 | h2
        · rcases hs1_cases with h1 | h1
          · exact Or.inl (h2.trans h1)
          · exact Or.inr (Or.inl (h2.trans h1))
        · exact Or.inr (Or.inr h2)
      have hle_l : ∀ c, c < l.length → (c = 2 * idx + 1 ∨ c = 2 * idx + 2) →
          l.getD c 0 ≤ l.getD s2v 0 := by
        intro c hcl hrel
        have : c = idx * 2 + 1 ∨ c = idx * 2 + 2 := by omega
        rcases this with hce | hce
        · subst hce
          exact hs2_le_L (by omega)
        · subst hce
          exact hs2_le_child2 (by omega)
      have hstep : MaxHeap._sift_down_loop (fuel + 1) h size idx
          = (if s2v = idx then pure h
             else do
               let h' ← h._swap (idx : Int) (s2v : Int)
               MaxHeap._sift_down_loop fuel h' size s2v) := by
        simp only [MaxHeap._sift_down_loop]
        rw [hE1]
        simp only [except_bind_ok]
        rw [hE2]
        simp only [except_bind_ok]
      by_cases hstop : s2v = idx
      · rw [if_pos hstop] at hstep
        refine ⟨h, l, by rw [hstep]; rfl, hW, ht, rfl, ?_, List.Perm.refl l⟩
        refine DownOKMax_stop_ordered l idx hdown ?_
        intro c hcl hrel
        rw [← hstop]
        exact hle_l c hcl hrel
      · rw [if_neg hstop] at hstep
        have hchild : s2v = 2 * idx + 1 ∨ s2v = 2 * idx + 2 := by omega
        have hs2_idxlt : idx < s2v := by omega
        obtain ⟨a', hsw, hW', hs', ht'⟩ :=
          MaxHeap._swap_spec_max h l idx s2v hW ht (by omega) (by omega)
        have hdown2 := DownOKMax_swap l idx s2v (by omega) (by omega) hchild hdown
          hs2_le_idx hle_l
        obtain ⟨h', l', hrun, hW2, ht2, hs2, hord, hperm⟩ :=
          ih ⟨a'⟩ size s2v _ hW' ht' (by simp only [List.length_set]; omega)
            hs2_lt (by omega) hdown2
        refine ⟨h', l', ?_, hW2, ht2, ?_, hord, ?_⟩
        · rw [hstep, hsw]
          simp only [except_bind_ok]
          exact hrun
        · rw [hs2]
          exact hs'
        · exact hperm.trans (list_swap_perm l idx s2v (by omega) (by omega))

/-- Heap representation invariant for `MaxHeap`. -/
def MaxHeap.Rep (h : MaxHeap) (l : List Int) : Prop :=
  h._data.WF ∧ h._data.to_list = l.map some ∧ MaxOrdered l

theorem MaxHeap.init_Rep_max : MaxHeap.init.Rep [] := by
  refine ⟨ArrayList.init_WF defaultCapacity, ?_, ?_⟩
  · rw [show MaxHeap.init._data = ArrayList.initDefault from rfl]
    rfl
  · intro p c hc hrel
    simp at hc

theorem MaxHeap.push_spec_max (h : MaxHeap) (l : List Int) (v : Int) (hr : h.Rep l) :
    ∃ (h' : MaxHeap) (l' : List Int), h.push (some v) = .ok h' ∧ h'.Rep l' ∧
      l'.Perm (l ++ [v]) := by
  obtain ⟨hW, ht, hord⟩ := hr
  obtain ⟨hWa, hsa, hta⟩ := ArrayList.add_spec h._data (some v) hW
  have hlen := ArrayList.vals_length h._data l hW ht
  have hta' : (h._data.add (some v)).to_list = (l ++ [v]).map some := by
    rw [hta, ht]
    simp
  have hup : UpOKMax (l ++ [v]) l.length := by
    constructor
    · intro p c hc hrel hne
      simp only [List.length_append, List.length_cons, List.length_nil] at hc
      have hc' : c < l.length := by omega
      have hp' : p < l.length := by omega
      rw [list_getD_append_left _ _ _ _ hp', list_getD_append_left _ _ _ _ hc']
      exact hord p c hc' hrel
    · intro c hc hrel hpos
      exfalso
      simp only [List.length_append, List.length_cons, List.length_nil] at hc
      omega
  obtain ⟨h', l', hrun, hW2, ht2, hs2, hord2, hperm⟩ :=
    MaxHeap._sift_up_spec_max l.length ⟨h._data.add (some v)⟩ (l ++ [v]) hWa hta'
      (by show l.length < (h._data.add (some v))._size; omega) hup
  refine ⟨h', l', ?_, ⟨hW2, ht2, hord2⟩, hperm⟩
  unfold MaxHeap.push
  show MaxHeap._sift_up ⟨h._data.add (some v)⟩ ((h._data.add (some v)).size - 1)
    = .ok h'
  have hidx : (h._data.add (some v)).size - 1 = l.length := by
    unfold ArrayList.size
    omega
  rw [hidx]
  exact hrun

theorem MaxHeap.peek_empty_max (h : MaxHeap) (hsz : h._data._size = 0) :
    h.peek = .ok none := by
  unfold MaxHeap.peek
  rw [if_pos (show h._data.size = 0 from hsz)]
  rfl

theorem MaxHeap.peek_spec_max (h : MaxHeap) (l : List Int) (hr : h.Rep l)
    (hne : l ≠ []) : h.peek = .ok (some (l.getD 0 0)) := by
  obtain ⟨hW, ht, -⟩ := hr
  have hlen := ArrayList.vals_length h._data l hW ht
  have hlpos : 0 < l.length := List.length_pos.mpr hne
  unfold MaxHeap.peek
  rw [if_neg (show ¬(h._data.size = 0) by unfold ArrayList.size; omega)]
  exact ArrayList.get_vals h._data l 0 hW ht (by omega)

theorem MaxHeap.pop_spec_max (h : MaxHeap) (l : List Int) (hr : h.Rep l)
    (hne : l ≠ []) :
    ∃ (h' : MaxHeap) (l' : List Int),
      h.pop = .ok (some (l.getD 0 0), h') ∧ h'.Rep l' ∧
      (l.getD 0 0 :: l').Perm l := by
  obtain ⟨hW, ht, hord⟩ := hr
  have hlen := ArrayList.vals_length h._data l hW ht
  have hlpos : 0 < l.length := List.length_pos.mpr hne
  have hg0 : h._data.get (0 : Int) = .ok (some (l.getD 0 0)) :=
    ArrayList.get_vals h._data l 0 hW ht (by omega)
  obtain ⟨a1, hrm, hW1, hs1, ht1⟩ := ArrayList.remove_last_spec h._data hW (by omega)
  have hlast : h._data.to_list.getD (h._data._size - 1) none
      = some (l.getD (l.length - 1) 0) := by
    rw [ht, show h._data._size - 1 = l.length - 1 from by omega]
    exact list_getD_map_some l (l.length - 1) (by omega)
  have ht1' : a1.to_list = l.dropLast.map some := by
    rw [ht1, ht]
    conv_rhs => rw [show l.dropLast.map some = (l.map some).dropLast from by
      cases l with
      | nil => rfl
      | cons a t => simp [List.dropLast_eq_take, List.map_take]]
  unfold MaxHeap.pop
  rw [if_neg (show ¬(h._data.size = 0) by unfold ArrayList.size; omega)]
  simp only [hg0, except_bind_ok, hrm, hlast]
  by_cases hone : l.length = 1
  · have ha1sz : a1.size = 0 := by
      unfold ArrayList.size
      omega
    rw [if_neg (by omega)]
    obtain ⟨x, hx⟩ : ∃ x, l = [x] := by
      cases l with
      | nil => exact absurd rfl hne
      | cons a t =>
          refine ⟨a, ?_⟩
          simp at hone
          rw [hone]
    subst hx
    refine ⟨⟨a1⟩, [], rfl, ⟨hW1, ?_, ?_⟩, ?_⟩
    · rw [ht1']
      rfl
    · intro p c hc hrel
      simp at hc
    · simp
  · have ha1pos : 0 < a1.size := by
      unfold ArrayList.size
      omega
    rw [if_pos ha1pos]
    obtain ⟨a2, hset, hW2, hs2, hc2, ht2⟩ :=
      ArrayList.set_spec a1 0 (some (l.getD (l.length - 1) 0)) hW1
        (by unfold ArrayList.size at ha1pos; omega)
    have ht2' : a2.to_list
        = (l.dropLast.set 0 (l.getD (l.length - 1) 0)).map some := by
      rw [ht2, ht1', List.map_set]
    have hdown : DownOKMax (l.dropLast.set 0 (l.getD (l.length - 1) 0)) 0 := by
      constructor
      · intro p c hc hrel hp0
        simp only [List.length_set, List.length_dropLast] at hc
        rw [list_getD_set, list_getD_set]
        rw [if_neg (by omega), if_neg (by omega)]
        rw [list_getD_dropLast l p (by omega), list_getD_dropLast l c (by omega)]
        exact hord p c (by omega) hrel
      · intro c hc hrel hpos0
        omega
    obtain ⟨h', l', hrun, hW3, ht3, hs3, hord3, hperm3⟩ :=
      MaxHeap._sift_down_loop_spec_max (a2.size + 1) ⟨a2⟩ a2.size 0
        (l.dropLast.set 0 (l.getD (l.length - 1) 0)) hW2 ht2'
        (by unfold ArrayList.size; simp; omega)
        (by unfold ArrayList.size; omega)
        (by omega) hdown
    have hset' : a1.set (0 : Int) (some (l.getD (l.length - 1) 0))
        = Except.ok a2 := hset
    refine ⟨h', l', ?_, ⟨hW3, ht3, hord3⟩, ?_⟩
    · rw [hset']
      simp only [except_bind_ok]
      have hsd : MaxHeap._sift_down ⟨a2⟩ 0 = .ok h' := by
        unfold MaxHeap._sift_down
        exact hrun
      rw [hsd]
      simp only [except_bind_ok]
      rfl
    · rw [List.perm_iff_count]
      intro x
      have hcnt := hperm3.count_eq x
      have hc2x := list_count_set_add l.dropLast 0 (l.getD (l.length - 1) 0) x
        (by simp only [List.length_dropLast]; omega)
      have hd0 : l.dropLast.getD 0 0 = l.getD 0 0 :=
        list_getD_dropLast l 0 (by omega)
      have hsplit : l.count x = l.dropLast.count x
          + (if l.getD (l.length - 1) 0 = x then 1 else 0) := by
        conv_lhs => rw [list_eq_dropLast_append l hne]
        simp only [List.count_append, List.count_cons, List.count_nil,
          beq_iff_eq, Nat.zero_add]
      rw [hd0] at hc2x
      rw [List.count_cons]
      simp only [beq_iff_eq]
      rw [hcnt]
      split_ifs at hc2x hsplit ⊢ <;> omega

/-! ### Interleaved operation sequences and heap-sort drivers -/

theorem list_getD_mem (l : List Int) (j : Nat) (hj : j < l.length) :
    l.getD j 0 ∈ l := by
  rw [List.mem_iff_getElem?]
  refine ⟨j, ?_⟩
  rw [List.getD_eq_getElem?_getD, List.getElem?_eq_getElem hj]
  rfl

theorem list_mem_getD (l : List Int) (x : Int) (hx : x ∈ l) :
    ∃ j, j < l.length ∧ l.getD j 0 = x := by
  rw [List.mem_iff_getElem?] at hx
  obtain ⟨j, hj⟩ := hx
  have hjlen : j < l.length := by
    by_contra hcon
    rw [List.getElem?_eq_none_iff.mpr (by omega)] at hj
    simp at hj
  refine ⟨j, hjlen, ?_⟩
  rw [List.getD_eq_getElem?_getD, hj]
  rfl

theorem MinHeap.pop_empty_size_min (h : MinHeap) (hsz : h._data._size = 0) :
    h.pop = .ok (none, h) := by
  unfold MinHeap.pop
  rw [if_pos (show h._data.size = 0 from hsz)]
  rfl

theorem MaxHeap.pop_empty_size_max (h : MaxHeap) (hsz : h._data._size = 0) :
    h.pop = .ok (none, h) := by
  unfold MaxHeap.pop
  rw [if_pos (show h._data.size = 0 from hsz)]
  rfl

/-- One step of an interleaved `push`/`pop` workload. -/
inductive HeapOp where
  | push (v : Int)
  | pop
deriving Repr, DecidableEq

/-- Run an interleaved sequence of `push`/`pop` calls on a `MinHeap`
(each `pop`s returned value is discarded, the heap state is kept). -/
def MinHeap.runOps (h : MinHeap) : List HeapOp → Except String MinHeap
  | [] => .ok h
  | op :: ops => do
      let h' ←
        (match op with
         | HeapOp.push v => h.push (some v)
         | HeapOp.pop => do
             let r ← h.pop
             pure r.2)
      h'.runOps ops

/-- Run an interleaved sequence of `push`/`pop` calls on a `MaxHeap`. -/
def MaxHeap.runOps (h : MaxHeap) : List HeapOp → Except String MaxHeap
  | [] => .ok h
  | op :: ops => do
      let h' ←
        (match op with
         | HeapOp.push v => h.push (some v)
         | HeapOp.pop => do
             let r ← h.pop
             pure r.2)
      h'.runOps ops

theorem MinHeap.runOps_spec_min (ops : List HeapOp) : ∀ (h : MinHeap) (l : List Int),
    h.Rep l → ∃ (h' : MinHeap) (l' : List Int),
      h.runOps ops = .ok h' ∧ h'.Rep l' := by
  induction ops with
  | nil =>
      intro h l hr
      exact ⟨h, l, rfl, hr⟩
  | cons op ops ih =>
      intro h l hr
      cases op with
      | push v =>
          obtain ⟨h1, l1, hrun1, hrep1, -⟩ := MinHeap.push_spec_min h l v hr
          obtain ⟨h2, l2, hrun2, hrep2⟩ := ih h1 l1 hrep1
          refine ⟨h2, l2, ?_, hrep2⟩
          show (do
            let h' ← h.push (some v)
            h'.runOps ops) = .ok h2
          rw [hrun1]
          simp only [except_bind_ok]
          exact hrun2
      | pop =>
          by_cases hnil : l = []
          · subst hnil
            have hsz : h._data._size = 0 := by
              have := ArrayList.vals_length h._data [] hr.1 hr.2.1
              simpa using this.symm
            obtain ⟨h2, l2, hrun2, hrep2⟩ := ih h [] hr
            refine ⟨h2, l2, ?_, hrep2⟩
            show (do
              let h' ← (do
                let r ← h.pop
                pure r.2)
              h'.runOps ops) = .ok h2
            rw [MinHeap.pop_empty_size_min h hsz]
            simp only [except_bind_ok, except_pure]
            exact hrun2
          · obtain ⟨h1, l1, hrun1, hrep1, -⟩ := MinHeap.pop_spec_min h l hr hnil
            obtain ⟨h2, l2, hrun2, hrep2⟩ := ih h1 l1 hrep1
            refine ⟨h2, l2, ?_, hrep2⟩
            show (do
              let h' ← (do
                let r ← h.pop
                pure r.2)
              h'.runOps ops) = .ok h2
            rw [hrun1]
            simp only [except_bind_ok, except_pure]
            exact hrun2

theorem MaxHeap.runOps_spec_max (ops : List HeapOp) : ∀ (h : MaxHeap) (l : List Int),
    h.Rep l → ∃ (h' : MaxHeap) (l' : List Int),
      h.runOps ops = .ok h' ∧ h'.Rep l' := by
  induction ops with
  | nil =>
      intro h l hr
      exact ⟨h, l, rfl, hr⟩
  | cons op ops ih =>
      intro h l hr
      cases op with
      | push v =>
          obtain ⟨h1, l1, hrun1, hrep1, -⟩ := MaxHeap.push_spec_max h l v hr
          obtain ⟨h2, l2, hrun2, hrep2⟩ := ih h1 l1 hrep1
          refine ⟨h2, l2, ?_, hrep2⟩
          show (do
            let h' ← h.push (some v)
            h'.runOps ops) = .ok h2
          rw [hrun1]
          simp only [except_bind_ok]
          exact hrun2
      | pop =>
          by_cases hnil : l = []
          · subst hnil
            have hsz : h._data._size = 0 := by
              have := ArrayList.vals_length h._data [] hr.1 hr.2.1
              simpa using this.symm
            obtain ⟨h2, l2, hrun2, hrep2⟩ := ih h [] hr
            refine ⟨h2, l2, ?_, hrep2⟩
            show (do
              let h' ← (do
                let r ← h.pop
                pure r.2)
              h'.runOps ops) = .ok h2
            rw [MaxHeap.pop_empty_size_max h hsz]
            simp only [except_bind_ok, except_pure]
            exact hrun2
          · obtain ⟨h1, l1, hrun1, hrep1, -⟩ := MaxHeap.pop_spec_max h l hr hnil
            obtain ⟨h2, l2, hrun2, hrep2⟩ := ih h1 l1 hrep1
            refine ⟨h2, l2, ?_, hrep2⟩
            show (do
              let h' ← (do
                let r ← h.pop
                pure r.2)
              h'.runOps ops) = .ok h2
            rw [hrun1]
            simp only [except_bind_ok, except_pure]
            exact hrun2

/-- C1: after any interleaved sequence of `push`/`pop` from a fresh heap, the
run never errors, and whenever the heap is non-empty `peek()` returns a
contained element that is a lower bound (MinHeap) resp. upper bound (MaxHeap)
of every contained element — i.e. the minimum resp. maximum of the multiset
of currently contained elements. -/
theorem claim_C1_heap_peek_extremum (ops : List HeapOp) :
    (∃ h : MinHeap, MinHeap.runOps MinHeap.init ops = .ok h ∧
      (h.contents ≠ [] → ∃ m : Int, h.peek = .ok (some m) ∧
        some m ∈ h.contents ∧ ∀ x : Int, some x ∈ h.contents → m ≤ x)) ∧
    (∃ h : MaxHeap, MaxHeap.runOps MaxHeap.init ops = .ok h ∧
      (h.contents ≠ [] → ∃ m : Int, h.peek = .ok (some m) ∧
        some m ∈ h.contents ∧ ∀ x : Int, some x ∈ h.contents → x ≤ m)) := by
  constructor
  · obtain ⟨h, l, hrun, hrep⟩ :=
      MinHeap.runOps_spec_min ops MinHeap.init [] MinHeap.init_Rep_min
    refine ⟨h, hrun, ?_⟩
    intro hne
    have hcl : h.contents = l.map some := hrep.2.1
    have hlne : l ≠ [] := by
      intro hx
      subst hx
      exact hne (by rw [hcl]; rfl)
    have hlpos : 0 < l.length := List.length_pos.mpr hlne
    refine ⟨l.getD 0 0, MinHeap.peek_spec_min h l hrep hlne, ?_, ?_⟩
    · rw [hcl]
      exact List.mem_map_of_mem some (list_getD_mem l 0 hlpos)
    · intro x hx
      rw [hcl] at hx
      obtain ⟨a, ha_mem, ha_eq⟩ := List.mem_map.mp hx
      have hax : a = x := Option.some_inj.mp ha_eq
      subst hax
      obtain ⟨j, hjlen, hjval⟩ := list_mem_getD l a ha_mem
      rw [← hjval]
      exact MinOrdered_root_le l hrep.2.2 j hjlen
  · obtain ⟨h, l, hrun, hrep⟩ :=
      MaxHeap.runOps_spec_max ops MaxHeap.init [] MaxHeap.init_Rep_max
    refine ⟨h, hrun, ?_⟩
    intro hne
    have hcl : h.contents = l.map some := hrep.2.1
    have hlne : l ≠ [] := by
      intro hx
      subst hx
      exact hne (by rw [hcl]; rfl)
    have hlpos : 0 < l.length := List.length_pos.mpr hlne
    refine ⟨l.getD 0 0, MaxHeap.peek_spec_max h l hrep hlne, ?_, ?_⟩
    · rw [hcl]
      exact List.mem_map_of_mem some (list_getD_mem l 0 hlpos)
    · intro x hx
      rw [hcl] at hx
      obtain ⟨a, ha_mem, ha_eq⟩ := List.mem_map.mp hx
      have hax : a = x := Option.some_inj.mp ha_eq
      subst hax
      obtain ⟨j, hjlen, hjval⟩ := list_mem_getD l a ha_mem
      rw [← hjval]
      exact MaxOrdered_le_root l hrep.2.2 j hjlen

/-- C7: remove-type and peek-type calls on empty containers return the `None`
sentinel and never raise: `Stack.pop`/`peek`, `Queue.dequeue`,
`MinHeap`/`MaxHeap` `pop`/`peek`, `ArrayList.remove_last`,
`LinkedList.remove_first`. -/
theorem claim_C7_empty_sentinel :
    (∀ s : Stack, s._items._size = 0 → s.pop = (none, s) ∧ s.peek = .ok none) ∧
    (∀ q : Queue, q._items.Reachable → q._items.size = 0 →
      q.dequeue = (none, q)) ∧
    (∀ h : MinHeap, h._data._size = 0 →
      h.pop = .ok (none, h) ∧ h.peek = .ok none) ∧
    (∀ h : MaxHeap, h._data._size = 0 →
      h.pop = .ok (none, h) ∧ h.peek = .ok none) ∧
    (∀ a : ArrayList, a._size = 0 → a.remove_last = (none, a)) ∧
    (∀ s : LinkedList, s.Reachable → s.size = 0 →
      s.remove_first = (none, s)) := by
  have hlinked : ∀ s : LinkedList, s.Reachable → s.size = 0 →
      s.remove_first = (none, s) := by
    intro s hreach hsz
    obtain ⟨l, hrep⟩ := LinkedList.Reachable_Rep s hreach
    have hl0 : l = [] := by
      have := hrep.1
      unfold LinkedList.size at hsz
      rw [hsz] at this
      exact (List.length_eq_zero.mp this.symm)
    subst hl0
    exact LinkedList.remove_first_Rep_nil s hrep
  have harr : ∀ a : ArrayList, a._size = 0 → a.remove_last = (none, a) := by
    intro a hsz
    unfold ArrayList.remove_last
    rw [if_pos hsz]
  refine ⟨?_, ?_, ?_, ?_, harr, hlinked⟩
  · intro s hsz
    constructor
    · show (s._items.remove_last.1, (⟨s._items.remove_last.2⟩ : Stack)) = (none, s)
      rw [harr s._items hsz]
    · unfold Stack.peek
      rw [if_pos (show s._items.size = 0 from hsz)]
  · intro q hreach hsz
    show (q._items.remove_first.1, (⟨q._items.remove_first.2⟩ : Queue)) = (none, q)
    rw [hlinked q._items hreach hsz]
  · intro h hsz
    exact ⟨MinHeap.pop_empty_size_min h hsz, MinHeap.peek_empty_min h hsz⟩
  · intro h hsz
    exact ⟨MaxHeap.pop_empty_size_max h hsz, MaxHeap.peek_empty_max h hsz⟩

/-- C10: a remove-type call on an empty container returns the sentinel AND
leaves the container state literally unchanged (same structure value, hence
same size, contents and all future behaviour). -/
theorem claim_C10_empty_remove_unchanged :
    (∀ a : ArrayList, a._size = 0 → a.remove_last = (none, a)) ∧
    (∀ s : LinkedList, s.Reachable → s.size = 0 →
      s.remove_first = (none, s)) ∧
    (∀ h : MinHeap, h._data._size = 0 → h.pop = .ok (none, h)) ∧
    (∀ h : MaxHeap, h._data._size = 0 → h.pop = .ok (none, h)) := by
  refine ⟨?_, ?_, ?_, ?_⟩
  · intro a hsz
    unfold ArrayList.remove_last
    rw [if_pos hsz]
  · intro s hreach hsz
    obtain ⟨l, hrep⟩ := LinkedList.Reachable_Rep s hreach
    have hl0 : l = [] := by
      have := hrep.1
      unfold LinkedList.size at hsz
      rw [hsz] at this
      exact (List.length_eq_zero.mp this.symm)
    subst hl0
    exact LinkedList.remove_first_Rep_nil s hrep
  · intro h hsz
    exact MinHeap.pop_empty_size_min h hsz
  · intro h hsz
    exact MaxHeap.pop_empty_size_max h hsz

/-- Push every element of `vs`, in order, onto the heap. -/
def MinHeap.pushAll (h : MinHeap) (vs : List Int) : Except String MinHeap :=
  vs.foldlM (fun a v => a.push (some v)) h

/-- Runs `n` successive `pop()` calls, collecting the returned values in order. -/
def MinHeap.popN (h : MinHeap) : Nat → Except String (List (Option Int) × MinHeap)
  | 0 => .ok ([], h)
  | n + 1 => do
      let r ← h.pop
      let rest ← r.2.popN n
      pure (r.1 :: rest.1, rest.2)

/-- Push every element of `vs`, in order, onto the heap. -/
def MaxHeap.pushAll (h : MaxHeap) (vs : List Int) : Except String MaxHeap :=
  vs.foldlM (fun a v => a.push (some v)) h

/-- Runs `n` successive `pop()` calls, collecting the returned values in order. -/
def MaxHeap.popN (h : MaxHeap) : Nat → Except String (List (Option Int) × MaxHeap)
  | 0 => .ok ([], h)
  | n + 1 => do
      let r ← h.pop
      let rest ← r.2.popN n
      pure (r.1 :: rest.1, rest.2)

theorem MinHeap.pushAll_spec_min (vs : List Int) : ∀ (h : MinHeap) (l : List Int),
    h.Rep l → ∃ (h' : MinHeap) (l' : List Int),
      h.pushAll vs = .ok h' ∧ h'.Rep l' ∧ l'.Perm (l ++ vs) := by
  induction vs with
  | nil =>
      intro h l hr
      exact ⟨h, l, rfl, hr, by simp⟩
  | cons v vs ih =>
      intro h l hr
      obtain ⟨h1, l1, hpush, hrep1, hperm1⟩ := MinHeap.push_spec_min h l v hr
      obtain ⟨h2, l2, hrest, hrep2, hperm2⟩ := ih h1 l1 hrep1
      refine ⟨h2, l2, ?_, hrep2, ?_⟩
      · show (h.push (some v) >>= fun a => MinHeap.pushAll a vs) = .ok h2
        rw [hpush]
        simp only [except_bind_ok]
        exact hrest
      · have heq : (l ++ [v]) ++ vs = l ++ v :: vs := by simp
        exact hperm2.trans ((hperm1.append_right vs).trans (heq ▸ List.Perm.refl _))

theorem MinHeap.popN_sorted_min (n : Nat) : ∀ (h : MinHeap) (l : List Int),
    h.Rep l → n = l.length →
    ∃ (lout : List Int) (h' : MinHeap),
      h.popN n = .ok (lout.map some, h') ∧ lout.Perm l ∧
      lout.Sorted (· ≤ ·) := by
  induction n with
  | zero =>
      intro h l hr hlen
      have hl0 : l = [] := List.length_eq_zero.mp hlen.symm
      subst hl0
      exact ⟨[], h, rfl, List.Perm.refl [], List.sorted_nil⟩
  | succ n ih =>
      intro h l hr hlen
      have hne : l ≠ [] := by
        intro hx
        subst hx
        simp at hlen
      obtain ⟨h1, l1, hpop, hrep1, hperm1⟩ := MinHeap.pop_spec_min h l hr hne
      have hlen1 : n = l1.length := by
        have := hperm1.length_eq
        simp at this
        omega
      obtain ⟨lout, h2, hrest, hperm2, hsort⟩ := ih h1 l1 hrep1 hlen1
      refine ⟨l.getD 0 0 :: lout, h2, ?_, ?_, ?_⟩
      · show (do
          let r ← h.pop
          let rest ← r.2.popN n
          pure (r.1 :: rest.1, rest.2)) = .ok ((l.getD 0 0 :: lout).map some, h2)
        rw [hpop]
        simp only [except_bind_ok]
        rw [hrest]
        simp only [except_bind_ok]
        rfl
      · exact (hperm2.cons (l.getD 0 0)).trans hperm1
      · rw [List.sorted_cons]
        refine ⟨?_, hsort⟩
        intro b hb
        have hb1 : b ∈ l1 := (hperm2.mem_iff).mp hb
        have hbl : b ∈ l := (hperm1.mem_iff).mp (List.mem_cons_of_mem _ hb1)
        obtain ⟨j, hjlen, hjval⟩ := list_mem_getD l b hbl
        rw [← hjval]
        exact MinOrdered_root_le l hr.2.2 j hjlen

theorem MaxHeap.pushAll_spec_max (vs : List Int) : ∀ (h : MaxHeap) (l : List Int),
    h.Rep l → ∃ (h' : MaxHeap) (l' : List Int),
      h.pushAll vs = .ok h' ∧ h'.Rep l' ∧ l'.Perm (l ++ vs) := by
  induction vs with
  | nil =>
      intro h l hr
      exact ⟨h, l, rfl, hr, by simp⟩
  | cons v vs ih =>
      intro h l hr
      obtain ⟨h1, l1, hpush, hrep1, hperm1⟩ := MaxHeap.push_spec_max h l v hr
      obtain ⟨h2, l2, hrest, hrep2, hperm2⟩ := ih h1 l1 hrep1
      refine ⟨h2, l2, ?_, hrep2, ?_⟩
      · show (h.push (some v) >>= fun a => MaxHeap.pushAll a vs) = .ok h2
        rw [hpush]
        simp only [except_bind_ok]
        exact hrest
      · have heq : (l ++ [v]) ++ vs = l ++ v :: vs := by simp
        exact hperm2.trans ((hperm1.append_right vs).trans (heq ▸ List.Perm.refl _))

theorem MaxHeap.popN_sorted_max (n : Nat) : ∀ (h : MaxHeap) (l : List Int),
    h.Rep l → n = l.length →
    ∃ (lout : List Int) (h' : MaxHeap),
      h.popN n = .ok (lout.map some, h') ∧ lout.Perm l ∧
      lout.Sorted (· ≥ ·) := by
  induction n with
  | zero =>
      intro h l hr hlen
      have hl0 : l = [] := List.length_eq_zero.mp hlen.symm
      subst hl0
      exact ⟨[], h, rfl, List.Perm.refl [], List.sorted_nil⟩
  | succ n ih =>
      intro h l hr hlen
      have hne : l ≠ [] := by
        intro hx
        subst hx
        simp at hlen
      obtain ⟨h1, l1, hpop, hrep1, hperm1⟩ := MaxHeap.pop_spec_max h l hr hne
      have hlen1 : n = l1.length := by
        have := hperm1.length_eq
        simp at this
        omega
      obtain ⟨lout, h2, hrest, hperm2, hsort⟩ := ih h1 l1 hrep1 hlen1
      refine ⟨l.getD 0 0 :: lout, h2, ?_, ?_, ?_⟩
      · show (do
          let r ← h.pop
          let rest ← r.2.popN n
          pure (r.1 :: rest.1, rest.2)) = .ok ((l.getD 0 0 :: lout).map some, h2)
        rw [hpop]
        simp only [except_bind_ok]
        rw [hrest]
        simp only [except_bind_ok]
        rfl
      · exact (hperm2.cons (l.getD 0 0)).trans hperm1
      · rw [List.sorted_cons]
        refine ⟨?_, hsort⟩
        intro b hb
        have hb1 : b ∈ l1 := (hperm2.mem_iff).mp hb
        have hbl : b ∈ l := (hperm1.mem_iff).mp (List.mem_cons_of_mem _ hb1)
        obtain ⟨j, hjlen, hjval⟩ := list_mem_getD l b hbl
        rw [← hjval]
        exact MaxOrdered_le_root l hr.2.2 j hjlen

/-- C5: pushing any list of distinct integers onto a fresh heap and popping
`N` times yields the elements as a fully sorted sequence — ascending for
`MinHeap`, descending for `MaxHeap` — and is a permutation of the input. -/
theorem claim_C5_heap_sort (l : List Int) (hnd : l.Nodup) :
    (∃ (h : MinHeap) (lout : List Int) (hrem : MinHeap),
      MinHeap.pushAll MinHeap.init l = .ok h ∧
      MinHeap.popN h l.length = .ok (lout.map some, hrem) ∧
      lout.Perm l ∧ lout.Sorted (· ≤ ·)) ∧
    (∃ (h : MaxHeap) (lout : List Int) (hrem : MaxHeap),
      MaxHeap.pushAll MaxHeap.init l = .ok h ∧
      MaxHeap.popN h l.length = .ok (lout.map some, hrem) ∧
      lout.Perm l ∧ lout.Sorted (· ≥ ·)) := by
  constructor
  · obtain ⟨h, l', hpush, hrep, hperm⟩ :=
      MinHeap.pushAll_spec_min l MinHeap.init [] MinHeap.init_Rep_min
    simp only [List.nil_append] at hperm
    obtain ⟨lout, hrem, hpopN, hperm2, hsort⟩ :=
      MinHeap.popN_sorted_min l.length h l' hrep hperm.length_eq.symm
    exact ⟨h, lout, hrem, hpush, hpopN, hperm2.trans hperm, hsort⟩
  · obtain ⟨h, l', hpush, hrep, hperm⟩ :=
      MaxHeap.pushAll_spec_max l MaxHeap.init [] MaxHeap.init_Rep_max
    simp only [List.nil_append] at hperm
    obtain ⟨lout, hrem, hpopN, hperm2, hsort⟩ :=
      MaxHeap.popN_sorted_max l.length h l' hrep hperm.length_eq.symm
    exact ⟨h, lout, hrem, hpush, hpopN, hperm2.trans hperm, hsort⟩

/-- Witness for C5 at the distinct list `[5, 3, 8, 1]`. -/
theorem claim_C5_witness :
    (∃ (h : MinHeap) (lout : List Int) (hrem : MinHeap),
      MinHeap.pushAll MinHeap.init [5, 3, 8, 1] = .ok h ∧
      MinHeap.popN h (4 : Nat) = .ok (lout.map some, hrem) ∧
      lout.Perm [5, 3, 8, 1] ∧ lout.Sorted (· ≤ ·)) ∧
    (∃ (h : MaxHeap) (lout : List Int) (hrem : MaxHeap),
      MaxHeap.pushAll MaxHeap.init [5, 3, 8, 1] = .ok h ∧
      MaxHeap.popN h (4 : Nat) = .ok (lout.map some, hrem) ∧
      lout.Perm [5, 3, 8, 1] ∧ lout.Sorted (· ≥ ·)) :=
  claim_C5_heap_sort [5, 3, 8, 1] (by decide)
